import Mathlib

/-!
# Verification of `3s.go` (bulk screenshot tool)

A shallow embedding of the functions of `3s.go` together with the parts of the Go
standard library they call, and the proofs of the properties claimed for them.

* A Go `string` is a sequence of bytes; it is embedded as a list of naturals, each
  byte being a value below 256.  No definition depends on that bound: a value of
  256 or more is treated like an invalid UTF-8 byte.
* Runes are naturals (`utf8.RuneError = 0xFFFD`).
* Loops whose trip count is bounded by the length of a string take that length as
  fuel, which makes every function total and evaluable.
* The goroutines of `processURLs` are embedded as a step function on the state of the
  pool; a run is a schedule of steps.
* The browser, the clock and the file system are parameters of `captureScreenshot`.

The definitions come first: the standard library, then `3s.go`, then the definitions
the statements and proofs use.  The theorems follow in the same order.
-/

namespace ThreeS

/-- A Go string: its bytes. -/
abbrev GoString := List Nat

/-! # Part 1: the Go standard library -/

/-! ## `unicode/utf8` -/

namespace utf8

/-- The rune Go substitutes for an invalid encoding. -/
def RuneError : Nat := 0xFFFD

/-- Bytes below `RuneSelf` are single-byte runes. -/
def RuneSelf : Nat := 0x80

/-- Table `first` of `unicode/utf8`: information about the first byte of an encoding.
`0xF0` is ASCII (`as`), `0xF1` is invalid (`xx`); otherwise the low three bits give the
size and the high four bits index `acceptRanges`. -/
def first (b : Nat) : Nat :=
  if b < 0x80 then 0xF0
  else if b < 0xC2 then 0xF1
  else if b < 0xE0 then 0x02
  else if b = 0xE0 then 0x13
  else if b < 0xED then 0x03
  else if b = 0xED then 0x23
  else if b < 0xF0 then 0x03
  else if b = 0xF0 then 0x34
  else if b < 0xF4 then 0x04
  else if b = 0xF4 then 0x44
  else 0xF1

/-- Table `acceptRanges` of `unicode/utf8`: the range allowed for the second byte. -/
def acceptRanges (i : Nat) : Nat × Nat :=
  match i with
  | 0 => (0x80, 0xBF)
  | 1 => (0xA0, 0xBF)
  | 2 => (0x80, 0x9F)
  | 3 => (0x90, 0xBF)
  | 4 => (0x80, 0x8F)
  | _ => (0, 0)

/-- Go `utf8.DecodeRuneInString`: the first rune of `s` and its width in bytes.
`(RuneError, 0)` on the empty string, `(RuneError, 1)` on an invalid encoding.
`s[i]` is `s.getD i 0`; the masks `&0x1F`, `&0x0F`, `&0x07`, `&0x3F` are remainders and
the shifts, which join disjoint bit fields, are products. -/
def DecodeRuneInString (s : GoString) : Nat × Nat :=
  let n := s.length
  if n < 1 then (RuneError, 0)
  else
    let s0 := s.getD 0 0
    let x := first s0
    if 0xF0 ≤ x then (if x % 2 = 1 then RuneError else s0, 1)
    else
      let sz := x % 8
      let accept := acceptRanges (x / 16)
      if n < sz then (RuneError, 1)
      else
        let s1 := s.getD 1 0
        if s1 < accept.1 ∨ accept.2 < s1 then (RuneError, 1)
        else if sz ≤ 2 then ((s0 % 32) * 64 + s1 % 64, 2)
        else
          let s2 := s.getD 2 0
          if s2 < 0x80 ∨ 0xBF < s2 then (RuneError, 1)
          else if sz ≤ 3 then ((s0 % 16) * 4096 + (s1 % 64) * 64 + s2 % 64, 3)
          else
            let s3 := s.getD 3 0
            if s3 < 0x80 ∨ 0xBF < s3 then (RuneError, 1)
            else ((s0 % 8) * 262144 + (s1 % 64) * 4096 + (s2 % 64) * 64 + s3 % 64, 4)

/-- Go `utf8.UTFMax`: the longest encoding of a rune. -/
def UTFMax : Nat := 4

/-- Go `utf8.RuneStart`: `b&0xC0 != 0x80`, the byte is not a continuation byte. -/
def RuneStart (b : Nat) : Bool := decide ((b / 64) % 4 ≠ 2)

/-- The loop `for start--; start >= lim; start-- { if RuneStart(s[start]) { break } }`
of `DecodeLastRuneInString`, entered after the first `start--`; the result may be
`lim - 1`, which is negative when `lim = 0`. -/
def backToRuneStart (s : GoString) (lim : Int) : Nat → Int → Int
  | 0, start => start
  | fuel + 1, start =>
    if lim ≤ start then
      if RuneStart (s.getD start.toNat 0) then start
      else backToRuneStart s lim fuel (start - 1)
    else start

/-- Go `utf8.DecodeLastRuneInString`: the last rune of `s` and its width. -/
def DecodeLastRuneInString (s : GoString) : Nat × Nat :=
  let stop := s.length
  if stop = 0 then (RuneError, 0)
  else
    let r := s.getD (stop - 1) 0
    if r < RuneSelf then (r, 1)
    else
      let lim : Int := if (stop : Int) - UTFMax < 0 then 0 else (stop : Int) - UTFMax
      let start0 := backToRuneStart s lim UTFMax ((stop : Int) - 2)
      let start := if start0 < 0 then 0 else start0.toNat
      let d := DecodeRuneInString (s.drop start)
      if start + d.2 ≠ stop then (RuneError, 1) else d

/-- Go `utf8.AppendRune` on a valid rune: its UTF-8 encoding (surrogates and values
above `0x10FFFF` encode `RuneError`). -/
def EncodeRune (r : Nat) : GoString :=
  if r < 0x80 then [r]
  else if r < 0x800 then [0xC0 + r / 64, 0x80 + r % 64]
  else if 0x10FFFF < r ∨ (0xD800 ≤ r ∧ r ≤ 0xDFFF) then [0xEF, 0xBF, 0xBD]
  else if r < 0x10000 then [0xE0 + r / 4096, 0x80 + (r / 64) % 64, 0x80 + r % 64]
  else [0xF0 + r / 262144, 0x80 + (r / 4096) % 64, 0x80 + (r / 64) % 64, 0x80 + r % 64]

/-- The runes of a string as a `for _, r := range s` loop sees them, each with the bytes
it was decoded from. -/
def runes : Nat → GoString → List (Nat × GoString)
  | 0, _ => []
  | _ + 1, [] => []
  | fuel + 1, c :: t =>
    let d := DecodeRuneInString (c :: t)
    (d.1, (c :: t).take d.2) :: runes fuel ((c :: t).drop d.2)

end utf8

/-- The bytes of a string literal (Go source text is UTF-8). -/
def lit (s : String) : GoString :=
  s.toList.flatMap (fun c => utf8.EncodeRune c.toNat)

/-! ## `unicode` -/

namespace unicode

/-- Go `unicode.IsSpace`: the Latin-1 white space and the other code points of the
`White_Space` property. -/
def IsSpace (r : Nat) : Bool :=
  if r ≤ 0xFF then
    r = 0x09 || r = 0x0A || r = 0x0B || r = 0x0C || r = 0x0D || r = 0x20 || r = 0x85 || r = 0xA0
  else
    r = 0x1680 || (0x2000 ≤ r && r ≤ 0x200A) || r = 0x2028 || r = 0x2029 || r = 0x202F ||
      r = 0x205F || r = 0x3000

end unicode

/-! ## `regexp` -/

namespace regexp

/-- Perl class `\w` of `regexp/syntax`: `[0-9A-Za-z_]`. -/
def isWordRune (r : Nat) : Bool :=
  (0x30 ≤ r && r ≤ 0x39) || (0x41 ≤ r && r ≤ 0x5A) || r = 0x5F || (0x61 ≤ r && r ≤ 0x7A)

/-- The negated class `[^\w]`: every rune that is not a word rune (a negated class
matches newline too, and `RuneError` like any other rune). -/
def notWordRune (r : Nat) : Bool := !isWordRune r

/-- `inputString.step`: the rune at the current position and its width, `none` at the
end of the text. -/
def step (s : GoString) : Option (Nat × Nat) :=
  match s with
  | [] => none
  | c :: _ => if c < utf8.RuneSelf then some (c, 1) else some (utf8.DecodeRuneInString s)

/-- Length in bytes of the match of `[cls]+` anchored at the start of `s`: the greedy
repetition takes every following rune of the class; `0` when there is no match. -/
def matchClassPlus (cls : Nat → Bool) : Nat → GoString → Nat
  | 0, _ => 0
  | fuel + 1, s =>
    match step s with
    | none => 0
    | some (r, w) => if cls r then w + matchClassPlus cls fuel (s.drop w) else 0

/-- The loop of `Regexp.replaceAll` for a pattern `[cls]+` and a replacement without
`$`: text before the leftmost match is copied, the match is replaced by `repl`, and the
search resumes after the match. -/
def replaceAll (cls : Nat → Bool) (repl : GoString) : Nat → GoString → GoString
  | 0, s => s
  | fuel + 1, s =>
    match step s with
    | none => []
    | some (_, w) =>
      let n := matchClassPlus cls s.length s
      if n = 0 then s.take w ++ replaceAll cls repl fuel (s.drop w)
      else repl ++ replaceAll cls repl fuel (s.drop n)

/-- Go `(*Regexp).ReplaceAllString` for the compiled pattern `[cls]+`. -/
def ReplaceAllString (cls : Nat → Bool) (src repl : GoString) : GoString :=
  replaceAll cls repl src.length src

end regexp

/-! ## `strings` -/

namespace strings

/-- Table `asciiSpace` of package `strings`. -/
def asciiSpace (c : Nat) : Bool :=
  c = 0x09 || c = 0x0A || c = 0x0B || c = 0x0C || c = 0x0D || c = 0x20

/-- Go `strings.IndexByte`: the position of the first byte `c`, `none` for `-1`. -/
def IndexByte : GoString → Nat → Option Nat
  | [], _ => none
  | b :: t, c => if b = c then some 0 else (IndexByte t c).map (fun i => i + 1)

/-- Go `strings.Count` for a one-byte separator. -/
def Count (s : GoString) (c : Nat) : Nat := s.count c

/-- The loop of `strings.genSplit` for a one-byte separator: at most `k` cuts. -/
def splitLoop (sep : Nat) : Nat → GoString → List GoString
  | 0, s => [s]
  | k + 1, s =>
    match IndexByte s sep with
    | none => [s]
    | some m => s.take m :: splitLoop sep k (s.drop (m + 1))

/-- Go `strings.genSplit(s, sep, 0, n)` for a one-byte separator. -/
def genSplit (s : GoString) (sep : Nat) (n : Int) : List GoString :=
  if n = 0 then []
  else
    let n1 : Nat := if n < 0 then Count s sep + 1 else n.toNat
    let n2 : Nat := if n1 > s.length + 1 then s.length + 1 else n1
    splitLoop sep (n2 - 1) s

/-- Go `strings.Split(s, sep)` for a one-byte separator. -/
def Split (s : GoString) (sep : Nat) : List GoString := genSplit s sep (-1)

/-- Go `strings.SplitN(s, sep, n)` for a one-byte separator. -/
def SplitN (s : GoString) (sep : Nat) (n : Int) : List GoString := genSplit s sep n

/-- Go `strings.indexFunc(s, f, false)`: the byte position of the first rune, in the
order of a `range` loop, on which `f` is false; the string has `i` bytes before `s`. -/
def indexFuncFalse (f : Nat → Bool) : Nat → Nat → GoString → Option Nat
  | 0, _, _ => none
  | _ + 1, _, [] => none
  | fuel + 1, i, c :: t =>
    let d := utf8.DecodeRuneInString (c :: t)
    if f d.1 = false then some i
    else indexFuncFalse f fuel (i + d.2) ((c :: t).drop d.2)

/-- Go `strings.TrimLeftFunc(s, f)`. -/
def TrimLeftFunc (s : GoString) (f : Nat → Bool) : GoString :=
  match indexFuncFalse f s.length 0 s with
  | none => []
  | some i => s.drop i

/-- Go `strings.lastIndexFunc(s, f, false)`, the loop
`for i := len(s); i > 0; { r, size := DecodeLastRuneInString(s[0:i]); i -= size; ... }`
from the current `i`. -/
def lastIndexFuncFalse (f : Nat → Bool) (s : GoString) : Nat → Nat → Option Nat
  | 0, _ => none
  | fuel + 1, i =>
    if 0 < i then
      let d := utf8.DecodeLastRuneInString (s.take i)
      if f d.1 = false then some (i - d.2)
      else lastIndexFuncFalse f s fuel (i - d.2)
    else none

/-- Go `strings.TrimRightFunc(s, f)`. -/
def TrimRightFunc (s : GoString) (f : Nat → Bool) : GoString :=
  match lastIndexFuncFalse f s s.length s.length with
  | some i =>
    if utf8.RuneSelf ≤ s.getD i 0 then s.take (i + (utf8.DecodeRuneInString (s.drop i)).2)
    else s.take (i + 1)
  | none => s.take 0

/-- Go `strings.TrimFunc(s, f)`. -/
def TrimFunc (s : GoString) (f : Nat → Bool) : GoString :=
  TrimRightFunc (TrimLeftFunc s f) f

/-- The second loop of `strings.TrimSpace`, on `s[start:]`: scan ASCII space from the
end, with the slow path on a non-ASCII byte. -/
def trimSpaceRight : Nat → GoString → GoString
  | 0, s => s
  | fuel + 1, s =>
    if 0 < s.length then
      let c := s.getD (s.length - 1) 0
      if utf8.RuneSelf ≤ c then TrimRightFunc s unicode.IsSpace
      else if asciiSpace c = false then s
      else trimSpaceRight fuel (s.take (s.length - 1))
    else s

/-- Go `strings.TrimSpace`: the first loop scans ASCII space from the start, with the
slow path `TrimFunc(s[start:], unicode.IsSpace)` on a non-ASCII byte. -/
def TrimSpace : GoString → GoString
  | [] => []
  | c :: t =>
    if utf8.RuneSelf ≤ c then TrimFunc (c :: t) unicode.IsSpace
    else if asciiSpace c = false then trimSpaceRight (c :: t).length (c :: t)
    else TrimSpace t

end strings

/-! ## `fmt` and `time` -/

namespace fmt

/-- Go `fmt.Sprintf` for the format strings of `3s.go`, whose only verbs are `%s` and
`%v`: each verb is replaced by the next operand, given already rendered as text (a string
renders as itself); a verb without operand prints `%!s(MISSING)` or `%!v(MISSING)`. -/
def Sprintf : GoString → List GoString → GoString
  | [], _ => []
  | [c], _ => [c]
  | c :: d :: rest, args =>
    if c = 0x25 ∧ (d = 0x73 ∨ d = 0x76) then
      match args with
      | [] => [0x25, 0x21, d] ++ lit "(MISSING)" ++ Sprintf rest []
      | a :: args => a ++ Sprintf rest args
    else c :: Sprintf (d :: rest) args

end fmt

namespace time

/-- Go `time.Second`, a `Duration` (an `int64` count of nanoseconds). -/
def Second : Int := 1000000000

/-- Go `time.Hour`. -/
def Hour : Int := 3600000000000

end time

/-- Two's-complement wrap-around of a 64-bit signed operation. -/
def wrapInt64 (x : Int) : Int := (x + 2 ^ 63) % 2 ^ 64 - 2 ^ 63

/-- A value of Go type `int` on a 64-bit platform. -/
def IsInt (n : Int) : Prop := -2 ^ 63 ≤ n ∧ n < 2 ^ 63

/-! ## `path/filepath` (Unix) -/

namespace filepath

/-- The path separator `/`. -/
def slash : Nat := 0x2F

/-- How `Clean` treats one path element, given the elements kept so far: an empty
element and `.` are dropped; `..` removes the element before it, is dropped at the root,
and is kept at the start of a relative path; any other element is kept. -/
def cleanStep (rooted : Bool) (out : List GoString) (e : GoString) : List GoString :=
  if e = [] ∨ e = [0x2E] then out
  else if e = [0x2E, 0x2E] then
    match out.getLast? with
    | none => if rooted then out else out ++ [e]
    | some l => if l = [0x2E, 0x2E] then out ++ [e] else out.dropLast
  else out ++ [e]

/-- Go `filepath.Clean` on Unix, by path elements: the elements between separators are
processed in order by `cleanStep` and written back with single separators, after a
leading separator if the path is rooted; the empty result is `.`. -/
def Clean (path : GoString) : GoString :=
  match path with
  | [] => [0x2E]
  | c :: _ =>
    let rooted := decide (c = slash)
    let out := (path.splitOn slash).foldl (cleanStep rooted) []
    let s := (if rooted then [slash] else []) ++ [slash].intercalate out
    if s = [] then [0x2E] else s

/-- Go `filepath.Join(dir, name)`: the elements from the first non-empty one are joined
with separators and cleaned. -/
def Join (dir name : GoString) : GoString :=
  if dir ≠ [] then Clean (dir ++ slash :: name)
  else if name ≠ [] then Clean name
  else []

end filepath

/-! ## Go maps with string keys and values -/

/-- A `map[string]string`: its entries, each key once. -/
abbrev GoMap := List (GoString × GoString)

namespace GoMap

/-- The statement `m[k] = v`: an entry with key `k` is replaced. -/
def set (m : GoMap) (k v : GoString) : GoMap :=
  (k, v) :: m.filter (fun e => decide (e.1 ≠ k))

/-- The expression `m[k]` with its presence flag. -/
def get (m : GoMap) (k : GoString) : Option GoString :=
  (m.find? (fun e => decide (e.1 = k))).map (fun e => e.2)

end GoMap

/-! # Part 2: `3s.go` -/

/-- The byte `_`. -/
def underscore : Nat := 0x5F

/-- The byte `,`. -/
def comma : Nat := 0x2C

/-- The byte `:`. -/
def colon : Nat := 0x3A

/-! ## `sanitizeFileName` -/

/-- Function `sanitizeFileName` of `3s.go`: the pattern `[^\w]+` is compiled and
`ReplaceAllString(input, "_")` is called on it. -/
def sanitizeFileName (input : GoString) : GoString :=
  regexp.ReplaceAllString regexp.notWordRune input (lit "_")

/-! ## `captureScreenshot`

The browser, the clock and the file system are outside the program: one call of
`captureScreenshot` is embedded as a function of what they answer. -/

/-- The file name built by `captureScreenshot` in `3s.go`:
`fmt.Sprintf("%s_%s.png", sanitizeFileName(targetURL), time.Now().Format("20060102_150405"))`,
where `stamp` is the formatted capture time. -/
def fileName (targetURL stamp : GoString) : GoString :=
  fmt.Sprintf (lit "%s_%s.png") [sanitizeFileName targetURL, stamp]

/-- How a `chromedp.Run(ctxWithTimeout, ...)` call ends. -/
inductive RunResult where
  /-- It returned `nil`. -/
  | ok
  /-- It returned an error, whose text is `cause`; `expired` tells whether the deadline of
  `ctxWithTimeout` had expired by then, that is whether `ctxWithTimeout.Err()` is
  `context.DeadlineExceeded` once the run has returned.  A run cut short by the deadline fails
  with `expired = true`, whatever error it reports (`context deadline exceeded`, or for
  instance `chrome failed to start`). -/
  | failed (cause : GoString) (expired : Bool)
  deriving DecidableEq

/-- What the collaborators of one `captureScreenshot` call answer. -/
structure CaptureEnv where
  /-- The first run: `network.Enable()` and `network.SetExtraHTTPHeaders`; it also starts
  the browser session. -/
  run1 : RunResult
  /-- The second run: `Navigate`, `WaitReady("body")`, `CaptureScreenshot`. -/
  run2 : RunResult
  /-- The error of `os.WriteFile`, `none` for `nil`. -/
  write : Option GoString
  /-- The text `%v` prints for `timeout` (`time.Duration.String`). -/
  timeoutText : GoString
  /-- The text of `time.Now().Format("20060102_150405")`. -/
  stamp : GoString

/-- The `return` statement that produced an error of `captureScreenshot`. -/
inductive ErrClass where
  /-- `failed to enable network and set headers: ...`. -/
  | headers
  /-- `timeout: page load exceeded ...`. -/
  | timeout
  /-- `failed to capture screenshot for ...`. -/
  | capture
  /-- `failed to save screenshot for ...`. -/
  | save
  deriving DecidableEq

/-- What one call of `captureScreenshot` does. -/
structure CaptureOutcome where
  /-- The error returned, with the statement that built it; `none` for `nil`. -/
  err : Option (ErrClass × GoString)
  /-- The path handed to `os.WriteFile`; `none` when the call returns before. -/
  filePath : Option GoString
  deriving DecidableEq

/-- Function `captureScreenshot` of `3s.go`.  The test
`ctxWithTimeout.Err() == context.DeadlineExceeded` is made only after a failed second
run; it reads the `expired` flag of that run. -/
def captureScreenshot (env : CaptureEnv) (targetURL outputDir : GoString) : CaptureOutcome :=
  match env.run1 with
  | RunResult.failed err _ =>
    { err := some (ErrClass.headers,
        fmt.Sprintf (lit "failed to enable network and set headers: %v") [err]),
      filePath := none }
  | RunResult.ok =>
    match env.run2 with
    | RunResult.failed err expired =>
      if expired then
        { err := some (ErrClass.timeout,
            fmt.Sprintf (lit "timeout: page load exceeded %v for %s")
              [env.timeoutText, targetURL]),
          filePath := none }
      else
        { err := some (ErrClass.capture,
            fmt.Sprintf (lit "failed to capture screenshot for %s: %v") [targetURL, err]),
          filePath := none }
    | RunResult.ok =>
      let filePath := filepath.Join outputDir (fileName targetURL env.stamp)
      match env.write with
      | some err =>
        { err := some (ErrClass.save,
            fmt.Sprintf (lit "failed to save screenshot for %s: %v") [targetURL, err]),
          filePath := some filePath }
      | none => { err := none, filePath := some filePath }

/-! ## The worker pool of `processURLs`

`processURLs` runs one main goroutine and `threads` worker goroutines that share a
channel of capacity `threads` and a `sync.WaitGroup`.  Its runs are the interleavings of
the atomic steps of these goroutines, embedded as a step function on `Pool`: each step
is one channel, wait-group or `captureScreenshot` event of one goroutine. -/

/-- Where a worker goroutine of `processURLs` stands. -/
inductive Worker where
  /-- At `for targetURL := range urlChan`, about to receive. -/
  | recv
  /-- It received `u` and has not called `captureScreenshot` yet. -/
  | claimed (u : GoString)
  /-- It is inside `captureScreenshot` for `u`. -/
  | capturing (u : GoString)
  /-- The `range` loop ended (channel closed and drained); `wg.Done()` is pending. -/
  | leaving
  /-- It ran `wg.Done()` and returned. -/
  | exited
  deriving DecidableEq

/-- Where the goroutine that called `processURLs` stands. -/
inductive MainPC where
  /-- In `for i := 0; i < threads; i++`, with the current `i`. -/
  | spawning (i : Nat)
  /-- In `for _, targetURL := range urls`, or at `close(urlChan)` when nothing is left. -/
  | sending
  /-- At `wg.Wait()`. -/
  | waiting
  /-- `processURLs` returned. -/
  | returned
  deriving DecidableEq

/-- The state of a run of `processURLs`. -/
structure Pool where
  /-- The `threads` argument; `urlChan` has this capacity. -/
  threads : Nat
  /-- Program counter of the calling goroutine. -/
  main : MainPC
  /-- The entries of `urls` not sent yet. -/
  pending : List GoString
  /-- The buffer of `urlChan`, oldest first. -/
  buf : List GoString
  /-- Whether `urlChan` is closed. -/
  closed : Bool
  /-- The worker goroutines started so far. -/
  workers : List Worker
  /-- The counter of the wait group. -/
  wg : Nat
  /-- The arguments of the `captureScreenshot` calls started so far, in order. -/
  started : List GoString
  /-- The arguments of the `captureScreenshot` calls that returned, in order. -/
  finished : List GoString
  deriving DecidableEq

/-- A scheduling choice: which goroutine takes its next step. -/
inductive Action where
  /-- The calling goroutine. -/
  | main
  /-- Worker number `j`. -/
  | worker (j : Nat)
  /-- The calling goroutine sends directly to worker `j`, blocked in its receive. -/
  | handoff (j : Nat)
  deriving DecidableEq

namespace processURLs

/-- The state after `var wg sync.WaitGroup; urlChan := make(chan string, threads)`.
`make` panics on a negative size: there is no state then. -/
def start (urls : List GoString) (threads : Int) : Option Pool :=
  if threads < 0 then none
  else some
    { threads := threads.toNat, main := MainPC.spawning 0, pending := urls, buf := [],
      closed := false, workers := [], wg := 0, started := [], finished := [] }

/-- One step of the calling goroutine; `none` when it is blocked or has returned.
* spawning: `wg.Add(1); go func() ...` while `i < threads`, then on to the send loop;
* sending: `urlChan <- targetURL`, possible while the buffer is not full, and
  `close(urlChan)` after the last entry;
* waiting: `wg.Wait()` returns once the counter is zero. -/
def mainStep (s : Pool) : Option Pool :=
  match s.main with
  | MainPC.spawning i =>
    if i < s.threads then
      some { s with wg := s.wg + 1, workers := s.workers ++ [Worker.recv],
                    main := MainPC.spawning (i + 1) }
    else some { s with main := MainPC.sending }
  | MainPC.sending =>
    match s.pending with
    | [] => some { s with closed := true, main := MainPC.waiting }
    | u :: rest =>
      if s.buf.length < s.threads then some { s with buf := s.buf ++ [u], pending := rest }
      else none
  | MainPC.waiting => if s.wg = 0 then some { s with main := MainPC.returned } else none
  | MainPC.returned => none

/-- One step of worker `j`; `none` when it is blocked, has exited or does not exist.
* `recv`: take the oldest buffered URL; on an empty closed channel leave the loop;
* `claimed u`: log and call `captureScreenshot` for `u`;
* `capturing u`: `captureScreenshot` returns (its error, if any, is only logged);
* `leaving`: the deferred `wg.Done()`. -/
def workerStep (s : Pool) (j : Nat) : Option Pool :=
  match s.workers.get? j with
  | none => none
  | some Worker.recv =>
    match s.buf with
    | u :: b => some { s with buf := b, workers := s.workers.set j (Worker.claimed u) }
    | [] => if s.closed then some { s with workers := s.workers.set j Worker.leaving } else none
  | some (Worker.claimed u) =>
    some { s with started := s.started ++ [u], workers := s.workers.set j (Worker.capturing u) }
  | some (Worker.capturing u) =>
    some { s with finished := s.finished ++ [u], workers := s.workers.set j Worker.recv }
  | some Worker.leaving =>
    some { s with wg := s.wg - 1, workers := s.workers.set j Worker.exited }
  | some Worker.exited => none

/-- A send that meets worker `j` blocked in its receive on an empty buffer: the value
goes straight to the receiver (the only way a send on an unbuffered channel proceeds). -/
def handoffStep (s : Pool) (j : Nat) : Option Pool :=
  match s.main, s.pending, s.buf, s.workers.get? j with
  | MainPC.sending, u :: rest, [], some Worker.recv =>
    some { s with pending := rest, workers := s.workers.set j (Worker.claimed u) }
  | _, _, _, _ => none

/-- The step chosen by the scheduler. -/
def step (s : Pool) (a : Action) : Option Pool :=
  match a with
  | Action.main => mainStep s
  | Action.worker j => workerStep s j
  | Action.handoff j => handoffStep s j

/-- The state after a schedule, `none` if one of its steps is not enabled. -/
def run (s : Pool) : List Action → Option Pool
  | [] => some s
  | a :: as => (step s a).bind (fun s1 => run s1 as)

/-- The states a run of `processURLs urls ... threads ...` can be in. -/
def Reachable (urls : List GoString) (threads : Int) (s : Pool) : Prop :=
  ∃ s0 sched, start urls threads = some s0 ∧ run s0 sched = some s

/-- The number of `captureScreenshot` calls that have started and not returned. -/
def inFlight (s : Pool) : Nat :=
  s.workers.countP (fun w => match w with | Worker.capturing _ => true | _ => false)

/-- No step is enabled. -/
def Stuck (s : Pool) : Prop := ∀ a, step s a = none

end processURLs

/-! ## `parseHeaders` -/

/-- Function `parseHeaders` of `3s.go`. -/
def parseHeaders (headerFlag : GoString) : GoMap :=
  if headerFlag ≠ [] then
    (strings.Split headerFlag comma).foldl
      (fun headers pair =>
        let parts := strings.SplitN pair colon 2
        if parts.length = 2 then
          GoMap.set headers (strings.TrimSpace (parts.getD 0 []))
            (strings.TrimSpace (parts.getD 1 []))
        else headers)
      []
  else []

/-! ## `main` -/

/-- The timeout conversion of `main` in `3s.go`:
`if *timeoutFlag > 0 { timeout = time.Duration(*timeoutFlag) * time.Second }
 else { timeout = time.Hour * 24 * 365 * 100 }`.
The product with the flag is a run-time `int64` product and wraps; the other branch is a
constant expression, evaluated exactly by the compiler. -/
def timeoutOfFlag (timeoutFlag : Int) : Int :=
  if timeoutFlag > 0 then wrapInt64 (timeoutFlag * time.Second)
  else time.Hour * 24 * 365 * 100

/-! # Part 3: definitions used in the statements -/

/-- What `sanitizeSpec` puts in place of one run of the split. -/
def specPiece (g : List (Nat × GoString)) : GoString :=
  match g with
  | [] => []
  | (r, bytes) :: _ => if regexp.isWordRune r then bytes else [underscore]

/-- The relation whose maximal chains are the runs replaced by the sanitizer. -/
def bothOutside (a b : Nat × GoString) : Bool :=
  !regexp.isWordRune a.1 && !regexp.isWordRune b.1

/-- The claimed behaviour of the sanitizer, following the words of the specification:
the characters (runes) of the input are cut into maximal runs of characters outside
`[A-Za-z0-9_]` (a character of the set stands alone); a character of the set is kept as
it is and every run is replaced by a single underscore. -/
def sanitizeSpec (s : GoString) : GoString :=
  (List.splitBy bothOutside (utf8.runes s.length s)).flatMap specPiece

/-- A decimal digit. -/
def isDigit (b : Nat) : Bool := 0x30 ≤ b && b ≤ 0x39

/-- A capture time rendered with the layout `20060102_150405`: eight digits, an
underscore, six digits. -/
def isStamp (stamp : GoString) : Bool :=
  stamp.length == 15 && (stamp.take 8).all isDigit && stamp.getD 8 0 == underscore &&
    (stamp.drop 9).all isDigit

namespace filepath

/-- The text in front of the name of a file that lies directly in directory `dir`:
nothing for the current directory, `/` for the root, and else the cleaned directory
followed by a separator. -/
def dirText (dir : GoString) : GoString :=
  if dir = [] ∨ Clean dir = [0x2E] then []
  else if Clean dir = [slash] then [slash]
  else Clean dir ++ [slash]

end filepath

/-- The deadline expired during the first run (steps 1 to 3: session setup, network
enable, extra headers) and cut it short: the run failed, with whatever error, and the
context had expired. -/
def DeadlineInFirstRun (env : CaptureEnv) : Prop :=
  ∃ cause, env.run1 = RunResult.failed cause true

/-- The deadline expired during the second run (steps 4 and 5: navigation, waiting for
the document, taking the screenshot) and cut it short: the first run returned `nil`, the
second failed, with whatever error, and the context had expired. -/
def DeadlineInSecondRun (env : CaptureEnv) : Prop :=
  env.run1 = RunResult.ok ∧ ∃ cause, env.run2 = RunResult.failed cause true

/-- The deadline expired during one of steps 1 to 5. -/
def DeadlineHit (env : CaptureEnv) : Prop :=
  DeadlineInFirstRun env ∨ DeadlineInSecondRun env

/-- The text of a piece before its first colon. -/
def beforeColon (p : GoString) : GoString := p.takeWhile (fun b => decide (b ≠ colon))

/-- The text of a piece after its first colon. -/
def afterColon (p : GoString) : GoString := (p.dropWhile (fun b => decide (b ≠ colon))).drop 1

/-- The mapping claimed for `parseHeaders`, following the words of the specification:
among the comma-separated pieces of `h` that contain a colon, the last one whose text
before the first colon trims to `k` gives the value, the trimmed text after that colon. -/
def headerSpec (h k : GoString) : Option GoString :=
  (((h.splitOn comma).filter (fun p => decide (colon ∈ p))).filter
      (fun p => decide (strings.TrimSpace (beforeColon p) = k))).getLast?.map
    (fun p => strings.TrimSpace (afterColon p))

/-- A mapping written back as its `key:value` entries joined by commas, in the order of
the list. -/
def renderHeaders (es : GoMap) : GoString :=
  [comma].intercalate (es.map (fun e => e.1 ++ colon :: e.2))

/-! # Part 4: definitions used in the proofs -/

namespace utf8

/-- A continuation byte `10xxxxxx`. -/
def isCont (b : Nat) : Prop := 0x80 ≤ b ∧ b ≤ 0xBF

/-- The shape of a decoding result on a string starting with a non-ASCII byte: an error
of width one, or a rune of two to four bytes made of a leading byte and continuation
bytes. -/
def DecodeShape (s0 : Nat) (t : GoString) (d : Nat × Nat) : Prop :=
  d = (RuneError, 1) ∨
  (0xC2 ≤ s0 ∧ 0x80 ≤ d.1 ∧
    ((∃ s1 t1, t = s1 :: t1 ∧ isCont s1 ∧ d.2 = 2) ∨
     (∃ s1 s2 t2, t = s1 :: s2 :: t2 ∧ isCont s1 ∧ isCont s2 ∧ d.2 = 3) ∨
     (∃ s1 s2 s3 t3, t = s1 :: s2 :: s3 :: t3 ∧ isCont s1 ∧ isCont s2 ∧ isCont s3 ∧ d.2 = 4)))

end utf8

/-- One pass over the decoded runes of a string that keeps the bytes of every word rune
and emits one underscore at the start of each run of other runes; `inRun` tells that the
previous rune was outside the class.  It links the replacement loop to `sanitizeSpec`. -/
def collapse : Bool → List (Nat × GoString) → GoString
  | _, [] => []
  | inRun, (r, bytes) :: rest =>
    if regexp.isWordRune r then bytes ++ collapse false rest
    else (if inRun then [] else [underscore]) ++ collapse true rest

namespace strings

/-- Nothing to trim on the left: the string is empty or its first rune is no space. -/
def LeftOK (s : GoString) : Prop :=
  s = [] ∨ unicode.IsSpace (utf8.DecodeRuneInString s).1 = false

/-- Nothing to trim on the right: the string is empty or its last rune is no space. -/
def RightOK (s : GoString) : Prop :=
  s = [] ∨ unicode.IsSpace (utf8.DecodeLastRuneInString s).1 = false

end strings

/-- What holds of every entry of a parsed mapping: key and value are trimmed, neither
holds a comma and the key holds no colon. -/
def CleanEntry (e : GoString × GoString) : Prop :=
  strings.TrimSpace e.1 = e.1 ∧ strings.TrimSpace e.2 = e.2 ∧ comma ∉ e.1 ∧ comma ∉ e.2 ∧
    colon ∉ e.1

namespace processURLs

/-- The URLs received by a worker and not yet passed to `captureScreenshot`. -/
def claimedList (ws : List Worker) : List GoString :=
  ws.flatMap (fun w => match w with | Worker.claimed u => [u] | _ => [])

/-- The URLs of the `captureScreenshot` calls in progress. -/
def capturingList (ws : List Worker) : List GoString :=
  ws.flatMap (fun w => match w with | Worker.capturing u => [u] | _ => [])

/-- The number of workers that have not run `wg.Done()`. -/
def activeCount (ws : List Worker) : Nat :=
  ws.countP (fun w => decide (w ≠ Worker.exited))

/-- The number of steps a worker can still take without receiving again. -/
def workerWeight (w : Worker) : Nat :=
  match w with
  | Worker.recv => 2
  | Worker.claimed _ => 4
  | Worker.capturing _ => 3
  | Worker.leaving => 1
  | Worker.exited => 0

/-- The part of the variant owed to the calling goroutine. -/
def mainWeight (threads : Nat) (m : MainPC) : Nat :=
  match m with
  | MainPC.spawning i => 3 * (threads - i) + 3
  | MainPC.sending => 2
  | MainPC.waiting => 1
  | MainPC.returned => 0

/-- A variant: every step of the pool makes it smaller. -/
def variant (s : Pool) : Nat :=
  mainWeight s.threads s.main + 4 * s.pending.length + 3 * s.buf.length +
    (s.workers.map workerWeight).sum

/-- The invariant of the pool for the submitted list `urls`. -/
structure Inv (urls : List GoString) (s : Pool) : Prop where
  /-- While spawning, `i` workers exist. -/
  spawn_len : ∀ i, s.main = MainPC.spawning i → s.workers.length = i ∧ i ≤ s.threads
  /-- After spawning, `threads` workers exist. -/
  full_len : (∀ i, s.main ≠ MainPC.spawning i) → s.workers.length = s.threads
  /-- The channel never holds more than its capacity. -/
  buf_len : s.buf.length ≤ s.threads
  /-- Every submitted URL is in exactly one place: not sent, buffered, claimed or
  passed to `captureScreenshot`. -/
  conserve : ((s.pending : Multiset GoString) + (s.buf : Multiset GoString) +
      (claimedList s.workers : Multiset GoString) + (s.started : Multiset GoString)) = urls
  /-- Every started call has returned or is in progress. -/
  calls : ((s.finished : Multiset GoString) + (capturingList s.workers : Multiset GoString)) =
      s.started
  /-- The wait-group counter is the number of workers that have not exited. -/
  wg_eq : s.wg = activeCount s.workers
  /-- The channel is open exactly until the send loop is over. -/
  open_main : s.closed = false → s.main = MainPC.sending ∨ ∃ i, s.main = MainPC.spawning i
  /-- Once the channel is closed nothing is left to send. -/
  closed_main : s.closed = true →
    (s.main = MainPC.waiting ∨ s.main = MainPC.returned) ∧ s.pending = []
  /-- No worker leaves its loop while the channel is open. -/
  open_workers : s.closed = false → ∀ w ∈ s.workers, w ≠ Worker.leaving ∧ w ≠ Worker.exited
  /-- A worker leaves its loop only when the channel is drained. -/
  gone_buf : (∃ w ∈ s.workers, w = Worker.leaving ∨ w = Worker.exited) → s.buf = []
  /-- The pool returns only when the counter is zero. -/
  ret_wg : s.main = MainPC.returned → s.wg = 0

end processURLs

/-! # Part 5: theorems -/

/-! ## Facts about `unicode/utf8` and the `regexp` model -/

namespace utf8

theorem first_lt (b : Nat) (h : b < 0x80) : first b = 0xF0 := by
  simp [first, h]

theorem first_cases (b : Nat) (h : 0x80 ≤ b) :
    (first b = 0xF1) ∨
    (0xC2 ≤ b ∧ b < 0xE0 ∧ first b = 0x02) ∨
    (b = 0xE0 ∧ first b = 0x13) ∨
    (0xE1 ≤ b ∧ b < 0xF0 ∧ b ≠ 0xED ∧ first b = 0x03) ∨
    (b = 0xED ∧ first b = 0x23) ∨
    (b = 0xF0 ∧ first b = 0x34) ∨
    (0xF1 ≤ b ∧ b < 0xF4 ∧ first b = 0x04) ∨
    (b = 0xF4 ∧ first b = 0x44) := by
  unfold first
  split_ifs <;> simp_all <;> omega

theorem decode_nil : DecodeRuneInString [] = (RuneError, 0) := by
  simp [DecodeRuneInString]

theorem decode_ascii (s0 : Nat) (t : GoString) (h : s0 < 0x80) :
    DecodeRuneInString (s0 :: t) = (s0, 1) := by
  simp [DecodeRuneInString, first_lt s0 h]

theorem decode_invalid (s0 : Nat) (t : GoString) (h : first s0 = 0xF1) :
    DecodeRuneInString (s0 :: t) = (RuneError, 1) := by
  simp [DecodeRuneInString, h]

theorem decode_two (s0 : Nat) (t : GoString) (h : first s0 = 0x02) :
    DecodeRuneInString (s0 :: t) =
      match t with
      | [] => (RuneError, 1)
      | s1 :: _ =>
        if s1 < 0x80 ∨ 0xBF < s1 then (RuneError, 1) else ((s0 % 32) * 64 + s1 % 64, 2) := by
  cases t with
  | nil => simp [DecodeRuneInString, h]
  | cons s1 t1 => simp [DecodeRuneInString, h, acceptRanges]

theorem decode_three (s0 : Nat) (t : GoString) (x : Nat) (h : first s0 = x) (hx : x % 8 = 3)
    (hlt : x < 0xF0) :
    DecodeRuneInString (s0 :: t) =
      match t with
      | s1 :: s2 :: _ =>
        if s1 < (acceptRanges (x / 16)).1 ∨ (acceptRanges (x / 16)).2 < s1 then (RuneError, 1)
        else if s2 < 0x80 ∨ 0xBF < s2 then (RuneError, 1)
        else ((s0 % 16) * 4096 + (s1 % 64) * 64 + s2 % 64, 3)
      | _ => (RuneError, 1) := by
  have h1 : ¬ (240 ≤ x) := by omega
  rcases t with _ | ⟨s1, _ | ⟨s2, t2⟩⟩ <;>
    simp [DecodeRuneInString, h, hx, h1]

theorem decode_four (s0 : Nat) (t : GoString) (x : Nat) (h : first s0 = x) (hx : x % 8 = 4)
    (hlt : x < 0xF0) :
    DecodeRuneInString (s0 :: t) =
      match t with
      | s1 :: s2 :: s3 :: _ =>
        if s1 < (acceptRanges (x / 16)).1 ∨ (acceptRanges (x / 16)).2 < s1 then (RuneError, 1)
        else if s2 < 0x80 ∨ 0xBF < s2 then (RuneError, 1)
        else if s3 < 0x80 ∨ 0xBF < s3 then (RuneError, 1)
        else ((s0 % 8) * 262144 + (s1 % 64) * 4096 + (s2 % 64) * 64 + s3 % 64, 4)
      | _ => (RuneError, 1) := by
  have h1 : ¬ (240 ≤ x) := by omega
  rcases t with _ | ⟨s1, _ | ⟨s2, _ | ⟨s3, t3⟩⟩⟩ <;>
    simp [DecodeRuneInString, h, hx, h1]

theorem decodeShape_three (s0 : Nat) (t : GoString) (x lo hi : Nat) (h : first s0 = x)
    (hx : x % 8 = 3) (hlt : x < 0xF0) (hacc : acceptRanges (x / 16) = (lo, hi))
    (hlo : 0x80 ≤ lo) (hhi : hi ≤ 0xBF) (hs0 : 0xE0 ≤ s0) (hs0b : s0 < 0xF0)
    (hmin : s0 = 0xE0 → 0xA0 ≤ lo) :
    DecodeShape s0 t (DecodeRuneInString (s0 :: t)) := by
  rw [decode_three s0 t x h hx hlt, hacc]
  rcases t with _ | ⟨s1, _ | ⟨s2, t2⟩⟩
  · left; rfl
  · left; rfl
  · by_cases c1 : s1 < lo ∨ hi < s1
    · left; simp [c1]
    · by_cases c2 : s2 < 0x80 ∨ 0xBF < s2
      · left; simp [c1, c2]
      · right
        simp only [c1, c2, if_false]
        refine ⟨by omega, ?_, Or.inr (Or.inl ⟨s1, s2, t2, rfl, ⟨by omega, by omega⟩,
          ⟨by omega, by omega⟩, trivial⟩)⟩
        by_cases e : s0 = 0xE0
        · have := hmin e
          omega
        · omega

theorem decodeShape_four (s0 : Nat) (t : GoString) (x lo hi : Nat) (h : first s0 = x)
    (hx : x % 8 = 4) (hlt : x < 0xF0) (hacc : acceptRanges (x / 16) = (lo, hi))
    (hlo : 0x80 ≤ lo) (hhi : hi ≤ 0xBF) (hs0 : 0xF0 ≤ s0) (hs0b : s0 < 0xF5)
    (hmin : s0 = 0xF0 → 0x90 ≤ lo) :
    DecodeShape s0 t (DecodeRuneInString (s0 :: t)) := by
  rw [decode_four s0 t x h hx hlt, hacc]
  rcases t with _ | ⟨s1, _ | ⟨s2, _ | ⟨s3, t3⟩⟩⟩
  · left; rfl
  · left; rfl
  · left; rfl
  · by_cases c1 : s1 < lo ∨ hi < s1
    · left; simp [c1]
    · by_cases c2 : s2 < 0x80 ∨ 0xBF < s2
      · left; simp [c1, c2]
      · by_cases c3 : s3 < 0x80 ∨ 0xBF < s3
        · left; simp [c1, c2, c3]
        · right
          simp only [c1, c2, c3, if_false]
          refine ⟨by omega, ?_, Or.inr (Or.inr ⟨s1, s2, s3, t3, rfl, ⟨by omega, by omega⟩,
            ⟨by omega, by omega⟩, ⟨by omega, by omega⟩, trivial⟩)⟩
          by_cases e : s0 = 0xF0
          · have := hmin e
            omega
          · omega

theorem decode_cases (s0 : Nat) (t : GoString) (h : 0x80 ≤ s0) :
    DecodeShape s0 t (DecodeRuneInString (s0 :: t)) := by
  rcases first_cases s0 h with h2 | ⟨h1, h1b, h2⟩ | ⟨h1, h2⟩ | ⟨h1, h1b, h1c, h2⟩ | ⟨h1, h2⟩ |
      ⟨h1, h2⟩ | ⟨h1, h1b, h2⟩ | ⟨h1, h2⟩
  · left; exact decode_invalid s0 t h2
  · rw [decode_two s0 t h2]
    rcases t with _ | ⟨s1, t1⟩
    · left; rfl
    · by_cases hc : s1 < 0x80 ∨ 0xBF < s1
      · left; simp [hc]
      · right
        simp only [hc, if_false]
        exact ⟨h1, by omega, Or.inl ⟨s1, t1, rfl, ⟨by omega, by omega⟩, trivial⟩⟩
  · exact decodeShape_three s0 t _ 0xA0 0xBF h2 (by norm_num) (by norm_num) (by rfl)
      (by norm_num) (by norm_num) (by omega) (by omega) (by intro; norm_num)
  · exact decodeShape_three s0 t _ 0x80 0xBF h2 (by norm_num) (by norm_num) (by rfl)
      (by norm_num) (by norm_num) (by omega) (by omega) (by omega)
  · exact decodeShape_three s0 t _ 0x80 0x9F h2 (by norm_num) (by norm_num) (by rfl)
      (by norm_num) (by norm_num) (by omega) (by omega) (by omega)
  · exact decodeShape_four s0 t _ 0x90 0xBF h2 (by norm_num) (by norm_num) (by rfl)
      (by norm_num) (by norm_num) (by omega) (by omega) (by intro; norm_num)
  · exact decodeShape_four s0 t _ 0x80 0xBF h2 (by norm_num) (by norm_num) (by rfl)
      (by norm_num) (by norm_num) (by omega) (by omega) (by omega)
  · exact decodeShape_four s0 t _ 0x80 0x8F h2 (by norm_num) (by norm_num) (by rfl)
      (by norm_num) (by norm_num) (by omega) (by omega) (by omega)

end utf8

namespace regexp

theorem isWordRune_lt (r : Nat) (h : isWordRune r = true) : r < 0x80 := by
  simp only [isWordRune, Bool.or_eq_true, Bool.and_eq_true, decide_eq_true_eq] at h
  omega

theorem runeError_not_word : isWordRune utf8.RuneError = false := by decide

/-- The rune the matcher reads is the one `DecodeRuneInString` returns. -/
theorem step_cons (c : Nat) (t : GoString) :
    step (c :: t) = some (utf8.DecodeRuneInString (c :: t)) := by
  simp only [step, utf8.RuneSelf]
  split_ifs with h
  · rw [utf8.decode_ascii c t h]
  · rfl

theorem decode_width_pos (c : Nat) (t : GoString) :
    1 ≤ (utf8.DecodeRuneInString (c :: t)).2 := by
  by_cases h : c < 0x80
  · rw [utf8.decode_ascii c t h]
  · rcases utf8.decode_cases c t (by omega) with h1 | ⟨_, _, h1⟩
    · rw [h1]
    · rcases h1 with ⟨_, _, _, _, e⟩ | ⟨_, _, _, _, _, _, e⟩ | ⟨_, _, _, _, _, _, _, _, e⟩ <;>
        omega

theorem decode_width_le (s : GoString) :
    (utf8.DecodeRuneInString s).2 ≤ s.length := by
  rcases s with _ | ⟨c, t⟩
  · simp [utf8.decode_nil]
  by_cases h : c < 0x80
  · rw [utf8.decode_ascii c t h]; simp
  · rcases utf8.decode_cases c t (by omega) with h1 | ⟨_, _, h1⟩
    · rw [h1]; simp
    · rcases h1 with ⟨_, _, e0, _, e⟩ | ⟨_, _, _, e0, _, _, e⟩ |
        ⟨_, _, _, _, e0, _, _, _, e⟩ <;>
      · rw [e, e0]; simp

/-- A word rune is decoded from one ASCII byte, which is the rune itself. -/
theorem decode_word (c : Nat) (t : GoString)
    (h : isWordRune (utf8.DecodeRuneInString (c :: t)).1 = true) :
    utf8.DecodeRuneInString (c :: t) = (c, 1) := by
  by_cases hc : c < 0x80
  · exact utf8.decode_ascii c t hc
  · exfalso
    rcases utf8.decode_cases c t (by omega) with h1 | ⟨_, h1, _⟩
    · rw [h1] at h
      simp [runeError_not_word] at h
    · have := isWordRune_lt _ h
      omega

theorem matchClassPlus_cons (cls : Nat → Bool) (fuel : Nat) (c : Nat) (t : GoString) :
    matchClassPlus cls (fuel + 1) (c :: t) =
      if cls (utf8.DecodeRuneInString (c :: t)).1 then
        (utf8.DecodeRuneInString (c :: t)).2 +
          matchClassPlus cls fuel ((c :: t).drop (utf8.DecodeRuneInString (c :: t)).2)
      else 0 := by
  simp only [matchClassPlus, step_cons]

theorem matchClassPlus_nil (cls : Nat → Bool) (fuel : Nat) :
    matchClassPlus cls fuel [] = 0 := by
  cases fuel <;> simp [matchClassPlus, step]

/-- More fuel than the length of the text does not change the match. -/
theorem matchClassPlus_fuel (cls : Nat → Bool) (fuel : Nat) :
    ∀ s : GoString, s.length ≤ fuel →
      matchClassPlus cls fuel s = matchClassPlus cls s.length s := by
  induction fuel using Nat.strong_induction_on with
  | _ fuel ih =>
    intro s hs
    rcases s with _ | ⟨c, t⟩
    · simp [matchClassPlus_nil]
    · obtain ⟨f, rfl⟩ : ∃ f, fuel = f + 1 := ⟨fuel - 1, by simp at hs; omega⟩
      simp only [List.length_cons] at hs ⊢
      rw [matchClassPlus_cons, matchClassPlus_cons]
      have hw := decode_width_pos c t
      have hl : ((c :: t).drop (utf8.DecodeRuneInString (c :: t)).2).length ≤ t.length := by
        simp only [List.length_drop, List.length_cons]; omega
      rw [ih f (by omega) _ (by omega), ih t.length (by omega) _ hl]

theorem matchClassPlus_le (cls : Nat → Bool) (fuel : Nat) :
    ∀ s : GoString, matchClassPlus cls fuel s ≤ s.length := by
  induction fuel with
  | zero => intro s; simp [matchClassPlus]
  | succ f ih =>
    intro s
    rcases s with _ | ⟨c, t⟩
    · simp [matchClassPlus_nil]
    · rw [matchClassPlus_cons]
      split_ifs
      · have h1 := ih ((c :: t).drop (utf8.DecodeRuneInString (c :: t)).2)
        have h2 := decode_width_le (c :: t)
        simp only [List.length_drop] at h1
        omega
      · omega

theorem replaceAll_nil (cls : Nat → Bool) (repl : GoString) (fuel : Nat) :
    replaceAll cls repl fuel [] = [] := by
  cases fuel <;> simp [replaceAll, step]

theorem replaceAll_cons (cls : Nat → Bool) (repl : GoString) (fuel : Nat) (c : Nat)
    (t : GoString) :
    replaceAll cls repl (fuel + 1) (c :: t) =
      if matchClassPlus cls (t.length + 1) (c :: t) = 0 then
        (c :: t).take (utf8.DecodeRuneInString (c :: t)).2 ++
          replaceAll cls repl fuel ((c :: t).drop (utf8.DecodeRuneInString (c :: t)).2)
      else
        repl ++ replaceAll cls repl fuel ((c :: t).drop (matchClassPlus cls (t.length + 1) (c :: t)))
      := by
  simp only [replaceAll, step_cons, List.length_cons]

/-- Where `[^\w]+` does not match, the text starts with a word byte. -/
theorem no_match_word (c : Nat) (t : GoString) (fuel : Nat)
    (h : matchClassPlus notWordRune (fuel + 1) (c :: t) = 0) :
    isWordRune c = true ∧ utf8.DecodeRuneInString (c :: t) = (c, 1) := by
  rw [matchClassPlus_cons] at h
  have hw := decode_width_pos c t
  have hword : isWordRune (utf8.DecodeRuneInString (c :: t)).1 = true := by
    by_contra hn
    simp only [notWordRune, Bool.not_eq_true] at hn h
    simp only [hn, Bool.not_false, if_true] at h
    omega
  have hd := decode_word c t hword
  rw [hd] at hword
  exact ⟨hword, hd⟩

theorem match_pos (c : Nat) (t : GoString) (fuel : Nat)
    (h : matchClassPlus notWordRune (fuel + 1) (c :: t) ≠ 0) :
    notWordRune (utf8.DecodeRuneInString (c :: t)).1 = true := by
  rw [matchClassPlus_cons] at h
  by_contra hn
  simp [hn] at h

/-- Every byte the replacement loop produces is a word byte when the replacement text
is made of word bytes. -/
theorem replaceAll_word (repl : GoString) (hrepl : ∀ b ∈ repl, isWordRune b = true)
    (fuel : Nat) :
    ∀ s : GoString, s.length ≤ fuel →
      ∀ b ∈ replaceAll notWordRune repl fuel s, isWordRune b = true := by
  induction fuel with
  | zero =>
    intro s hs b hb
    have : s = [] := List.length_eq_zero.mp (by omega)
    subst this
    simp [replaceAll] at hb
  | succ f ih =>
    intro s hs b hb
    rcases s with _ | ⟨c, t⟩
    · simp [replaceAll_nil] at hb
    · rw [replaceAll_cons] at hb
      simp only [List.length_cons] at hs
      split_ifs at hb with hm
      · obtain ⟨hc, hd⟩ := no_match_word c t _ hm
        rw [hd] at hb
        simp only [List.take_succ_cons, List.take_zero, List.drop_succ_cons, List.drop_zero,
          List.singleton_append, List.mem_cons] at hb
        rcases hb with rfl | hb
        · exact hc
        · exact ih t (by omega) b hb
      · rcases List.mem_append.mp hb with hb | hb
        · exact hrepl b hb
        · refine ih _ ?_ b hb
          simp only [List.length_drop, List.length_cons]
          omega

end regexp

namespace utf8

theorem decode_append_three (s0 : Nat) (t q : GoString) (x : Nat) (h : first s0 = x)
    (hx : x % 8 = 3) (hlt : x < 0xF0) :
    DecodeRuneInString (s0 :: t) = DecodeRuneInString (s0 :: t ++ q) ∨
      DecodeRuneInString (s0 :: t) = (RuneError, 1) := by
  rw [List.cons_append, decode_three s0 t x h hx hlt, decode_three s0 _ x h hx hlt]
  rcases t with _ | ⟨s1, _ | ⟨s2, t2⟩⟩
  · right; rfl
  · right; rfl
  · left; rfl

theorem decode_append_four (s0 : Nat) (t q : GoString) (x : Nat) (h : first s0 = x)
    (hx : x % 8 = 4) (hlt : x < 0xF0) :
    DecodeRuneInString (s0 :: t) = DecodeRuneInString (s0 :: t ++ q) ∨
      DecodeRuneInString (s0 :: t) = (RuneError, 1) := by
  rw [List.cons_append, decode_four s0 t x h hx hlt, decode_four s0 _ x h hx hlt]
  rcases t with _ | ⟨s1, _ | ⟨s2, _ | ⟨s3, t3⟩⟩⟩
  · right; rfl
  · right; rfl
  · right; rfl
  · left; rfl

/-- Decoding a non-empty piece of a string gives what decoding the whole string gives,
or an error of width one. -/
theorem decode_append (p q : GoString) (hp : p ≠ []) :
    DecodeRuneInString p = DecodeRuneInString (p ++ q) ∨
      DecodeRuneInString p = (RuneError, 1) := by
  rcases p with _ | ⟨s0, t⟩
  · exact absurd rfl hp
  by_cases h0 : s0 < 0x80
  · left
    rw [List.cons_append, decode_ascii s0 t h0, decode_ascii s0 _ h0]
  rcases first_cases s0 (by omega) with h2 | ⟨_, _, h2⟩ | ⟨_, h2⟩ | ⟨_, _, _, h2⟩ | ⟨_, h2⟩ |
      ⟨_, h2⟩ | ⟨_, _, h2⟩ | ⟨_, h2⟩
  · right; exact decode_invalid s0 t h2
  · rw [List.cons_append, decode_two s0 t h2, decode_two s0 _ h2]
    rcases t with _ | ⟨s1, t1⟩
    · right; rfl
    · left; rfl
  · exact decode_append_three s0 t q _ h2 (by norm_num) (by norm_num)
  · exact decode_append_three s0 t q _ h2 (by norm_num) (by norm_num)
  · exact decode_append_three s0 t q _ h2 (by norm_num) (by norm_num)
  · exact decode_append_four s0 t q _ h2 (by norm_num) (by norm_num)
  · exact decode_append_four s0 t q _ h2 (by norm_num) (by norm_num)
  · exact decode_append_four s0 t q _ h2 (by norm_num) (by norm_num)

/-- A rune of two bytes or more is decoded from its own bytes only. -/
theorem decode_local (p q : GoString) (h : 2 ≤ (DecodeRuneInString p).2) :
    DecodeRuneInString (p ++ q) = DecodeRuneInString p := by
  rcases p with _ | ⟨s0, t⟩
  · rw [decode_nil] at h
    simp at h
  rcases decode_append (s0 :: t) q (by simp) with h1 | h1
  · exact h1.symm
  · rw [h1] at h
    simp at h

/-- A byte followed by nothing, or by a byte that is no continuation byte, is decoded
alone. -/
theorem decode_width_one (b : Nat) (t : GoString)
    (ht : t = [] ∨ ∃ c t1, t = c :: t1 ∧ ¬ isCont c) :
    (DecodeRuneInString (b :: t)).2 = 1 := by
  by_cases h0 : b < 0x80
  · rw [decode_ascii b t h0]
  rcases decode_cases b t (by omega) with h1 | ⟨_, _, h1⟩
  · rw [h1]
  · exfalso
    rcases h1 with ⟨s1, t1, e, hc, _⟩ | ⟨s1, s2, t2, e, hc, _⟩ | ⟨s1, s2, s3, t3, e, hc, _⟩ <;>
    · rcases ht with ht | ⟨c, t1, ht, hnc⟩
      · rw [ht] at e
        cases e
      · rw [ht] at e
        simp only [List.cons.injEq] at e
        exact hnc (e.1 ▸ hc)

/-- A rune of two bytes or more starts with a byte that is no continuation byte. -/
theorem decode_lead (b : Nat) (t : GoString) (h : 2 ≤ (DecodeRuneInString (b :: t)).2) :
    ¬ isCont b := by
  by_cases h0 : b < 0x80
  · intro hc
    unfold isCont at hc
    omega
  rcases decode_cases b t (by omega) with h1 | ⟨h1, _, _⟩
  · rw [h1] at h
    simp at h
  · intro hc
    unfold isCont at hc
    omega

theorem decode_single (b : Nat) (h : 0x80 ≤ b) : DecodeRuneInString [b] = (RuneError, 1) := by
  rcases decode_cases b [] h with h1 | ⟨_, _, h1⟩
  · exact h1
  · rcases h1 with ⟨_, _, e, _⟩ | ⟨_, _, _, e, _⟩ | ⟨_, _, _, _, e, _⟩ <;> cases e

theorem backToRuneStart_le (s : GoString) (lim : Int) (fuel : Nat) :
    ∀ start : Int, backToRuneStart s lim fuel start ≤ start := by
  induction fuel with
  | zero => intro start; simp [backToRuneStart]
  | succ f ih =>
    intro start
    simp only [backToRuneStart]
    split_ifs
    · exact le_refl _
    · have := ih (start - 1)
      omega
    · exact le_refl _

theorem drop_last (x : GoString) (hx : x ≠ []) :
    x.drop (x.length - 1) = [x.getD (x.length - 1) 0] := by
  have hl : 0 < x.length := List.length_pos.mpr hx
  rw [List.drop_eq_getElem_cons (by omega)]
  simp [List.getD_eq_getElem?_getD, List.getElem?_eq_getElem (show x.length - 1 < x.length by omega),
    show x.length - 1 + 1 = x.length by omega]

/-- What `DecodeLastRuneInString` returns on a non-empty string: a width between one
and the length; a width of two or more comes from decoding the last bytes forwards; a
width of one is the last byte itself when it is ASCII and an error otherwise. -/
theorem decodeLast_cases (x : GoString) (hx : x ≠ []) :
    1 ≤ (DecodeLastRuneInString x).2 ∧ (DecodeLastRuneInString x).2 ≤ x.length ∧
      (2 ≤ (DecodeLastRuneInString x).2 →
        DecodeRuneInString (x.drop (x.length - (DecodeLastRuneInString x).2)) =
          DecodeLastRuneInString x) ∧
      ((DecodeLastRuneInString x).2 = 1 →
        (x.getD (x.length - 1) 0 < 0x80 ∧
            (DecodeLastRuneInString x).1 = x.getD (x.length - 1) 0) ∨
          (0x80 ≤ x.getD (x.length - 1) 0 ∧ (DecodeLastRuneInString x).1 = RuneError)) := by
  have hl : 0 < x.length := List.length_pos.mpr hx
  unfold DecodeLastRuneInString
  simp only [show ¬ (x.length = 0) by omega, if_false, RuneSelf]
  by_cases hb : x.getD (x.length - 1) 0 < 128
  · simp only [hb, if_true]
    exact ⟨le_refl _, by omega, fun h => by omega, fun _ => Or.inl ⟨trivial, trivial⟩⟩
  · simp only [hb, if_false]
    generalize hst0 : backToRuneStart x
      (if (x.length : Int) - UTFMax < 0 then 0 else (x.length : Int) - UTFMax) UTFMax
      ((x.length : Int) - 2) = start0
    have hle : start0 ≤ (x.length : Int) - 2 := by
      rw [← hst0]
      exact backToRuneStart_le _ _ _ _
    generalize hst : (if start0 < 0 then 0 else start0.toNat) = start
    have hlt : start < x.length := by
      rw [← hst]
      split_ifs <;> omega
    split_ifs with hne
    · exact ⟨le_refl _, by omega, fun h => by simp at h, fun _ => Or.inr ⟨by omega, rfl⟩⟩
    · simp only [ne_eq, not_not] at hne
      have hpos : 1 ≤ (DecodeRuneInString (x.drop start)).2 := by
        rcases hd : x.drop start with _ | ⟨c, t⟩
        · have := congrArg List.length hd
          simp only [List.length_drop, List.length_nil] at this
          omega
        · exact regexp.decode_width_pos c t
      refine ⟨hpos, by omega, fun _ => ?_, fun h1 => Or.inr ⟨by omega, ?_⟩⟩
      · rw [show x.length - (DecodeRuneInString (x.drop start)).2 = start by omega]
      · have hs : start = x.length - 1 := by omega
        rw [hs, drop_last x hx, decode_single _ (by omega)]

end utf8

/-! ## Facts about `strings` and Go maps -/

namespace strings

theorem indexByte_none (s : GoString) (c : Nat) : IndexByte s c = none ↔ c ∉ s := by
  induction s with
  | nil => simp [IndexByte]
  | cons b t ih =>
    simp only [IndexByte, List.mem_cons, not_or]
    split_ifs with h
    · simp [h]
    · simp only [Option.map_eq_none', ih]
      constructor
      · intro h1
        exact ⟨fun e => h e.symm, h1⟩
      · exact fun h1 => h1.2

theorem indexByte_some (s : GoString) (c : Nat) :
    ∀ m, IndexByte s c = some m →
      s.take m = s.takeWhile (fun b => decide (b ≠ c)) ∧
        s.drop (m + 1) = (s.dropWhile (fun b => decide (b ≠ c))).drop 1 := by
  induction s with
  | nil => intro m h; simp [IndexByte] at h
  | cons b t ih =>
    intro m h
    simp only [IndexByte] at h
    split_ifs at h with hb
    · simp only [Option.some.injEq] at h
      subst h
      simp [hb, List.takeWhile, List.dropWhile]
    · rcases hi : IndexByte t c with _ | k
      · simp [hi] at h
      · simp only [hi, Option.map_some', Option.some.injEq] at h
        subst h
        obtain ⟨h1, h2⟩ := ih k hi
        simp [List.takeWhile, List.dropWhile, hb, h1, h2]

/-- The loop of `genSplit` with enough room cuts at every separator. -/
theorem splitLoop_eq_splitOn (sep : Nat) (s : GoString) :
    ∀ k, s.count sep ≤ k → splitLoop sep k s = s.splitOn sep := by
  induction s with
  | nil =>
    intro k _
    cases k <;> simp [splitLoop, IndexByte, List.splitOn]
  | cons b t ih =>
    intro k hk
    by_cases hb : b = sep
    · subst hb
      simp only [List.count_cons_self] at hk
      obtain ⟨k1, rfl⟩ : ∃ k1, k = k1 + 1 := ⟨k - 1, by omega⟩
      simp only [splitLoop, IndexByte, if_true, List.take_zero, zero_add, List.drop_succ_cons,
        List.drop_zero]
      rw [ih k1 (by omega)]
      simp [List.splitOn, List.splitOnP_cons]
    · have hcount : (b :: t).count sep = t.count sep := by
        simp [List.count_cons, hb]
      rw [hcount] at hk
      have hih := ih k hk
      have hso : (b :: t).splitOn sep = (t.splitOn sep).modifyHead (fun l => b :: l) := by
        simp [List.splitOn, List.splitOnP_cons, hb]
      rw [hso, ← hih]
      cases k with
      | zero => simp [splitLoop, List.modifyHead]
      | succ k1 =>
        simp only [splitLoop, IndexByte, hb, if_false]
        rcases hi : IndexByte t sep with _ | m
        · simp [List.modifyHead]
        · simp [List.modifyHead]

theorem split_eq_splitOn (s : GoString) (sep : Nat) : Split s sep = s.splitOn sep := by
  unfold Split genSplit
  have hc : s.count sep ≤ s.length := List.count_le_length _ _
  simp only [show ((-1 : Int) = 0) = False by simp, if_false, Count,
    show ((-1 : Int) < 0) = True by simp, if_true]
  apply splitLoop_eq_splitOn
  split_ifs <;> omega

theorem takeWhile_of_not_mem (p : GoString) (c : Nat) (h : c ∉ p) :
    p.takeWhile (fun b => decide (b ≠ c)) = p := by
  rw [List.takeWhile_eq_self_iff]
  intro x hx
  simp only [ne_eq, decide_eq_true_eq]
  rintro rfl
  exact h hx

/-- `SplitN(p, ":", 2)` cuts at the first colon, if there is one. -/
theorem splitN_two (p : GoString) (c : Nat) :
    SplitN p c 2 =
      if c ∈ p then
        [p.takeWhile (fun b => decide (b ≠ c)), (p.dropWhile (fun b => decide (b ≠ c))).drop 1]
      else [p] := by
  unfold SplitN genSplit
  simp only [show ((2 : Int) = 0) = False by simp, if_false,
    show ((2 : Int) < 0) = False by simp, show (2 : Int).toNat = 2 by rfl]
  rcases p with _ | ⟨b, t⟩
  · simp [splitLoop]
  · have h2 : ¬ (2 > (b :: t).length + 1) := by simp
    simp only [h2, if_false, show 2 - 1 = 1 by rfl, splitLoop]
    rcases hi : IndexByte (b :: t) c with _ | m
    · have := (indexByte_none _ _).mp hi
      simp [this]
    · have hmem : c ∈ b :: t := by
        by_contra hn
        rw [(indexByte_none _ _).mpr hn] at hi
        cases hi
      obtain ⟨h1, h2⟩ := indexByte_some _ _ m hi
      simp only [hmem, if_true, h1, h2]

end strings

namespace GoMap

theorem get_nil (k : GoString) : get [] k = none := rfl

theorem find_filter (m : GoMap) (k k2 : GoString) (h : k ≠ k2) :
    (m.filter (fun e => decide (e.1 ≠ k))).find? (fun e => decide (e.1 = k2)) =
      m.find? (fun e => decide (e.1 = k2)) := by
  induction m with
  | nil => rfl
  | cons e m ih =>
    by_cases he : e.1 = k
    · have h2 : e.1 ≠ k2 := fun e2 => h (he.symm.trans e2)
      rw [List.filter_cons_of_neg (by simp [he]), List.find?_cons_of_neg _ (by simp [h2]), ih]
    · rw [List.filter_cons_of_pos (by simp [he])]
      by_cases he2 : e.1 = k2
      · rw [List.find?_cons_of_pos _ (by simp [he2]), List.find?_cons_of_pos _ (by simp [he2])]
      · rw [List.find?_cons_of_neg _ (by simp [he2]), List.find?_cons_of_neg _ (by simp [he2]),
          ih]

theorem get_set (m : GoMap) (k v k2 : GoString) :
    get (set m k v) k2 = if k = k2 then some v else get m k2 := by
  unfold get set
  by_cases h : k = k2
  · rw [List.find?_cons_of_pos _ (by simp [h])]
    simp [h]
  · rw [List.find?_cons_of_neg _ (by simp [h]), find_filter m k k2 h]
    simp [h]

end GoMap

namespace strings

theorem indexByte_split (s : GoString) (c : Nat) :
    ∀ m, IndexByte s c = some m → s = s.take m ++ c :: s.drop (m + 1) ∧ c ∉ s.take m := by
  induction s with
  | nil => intro m h; simp [IndexByte] at h
  | cons b t ih =>
    intro m h
    simp only [IndexByte] at h
    split_ifs at h with hb
    · simp only [Option.some.injEq] at h
      subst h
      simp [hb]
    · rcases hi : IndexByte t c with _ | k
      · simp [hi] at h
      · simp only [hi, Option.map_some', Option.some.injEq] at h
        subst h
        obtain ⟨h1, h2⟩ := ih k hi
        refine ⟨?_, ?_⟩
        · simp only [List.take_succ_cons, List.drop_succ_cons, List.cons_append]
          rw [← h1]
        · simp only [List.take_succ_cons, List.mem_cons, not_or]
          exact ⟨fun e => hb e.symm, h2⟩

/-- The pieces cut by `Split` hold no separator. -/
theorem splitLoop_no_sep (sep : Nat) (k : Nat) :
    ∀ s : GoString, s.count sep ≤ k → ∀ p ∈ splitLoop sep k s, sep ∉ p := by
  induction k with
  | zero =>
    intro s hs p hp
    simp only [splitLoop, List.mem_singleton] at hp
    subst hp
    exact List.count_eq_zero.mp (by omega)
  | succ k ih =>
    intro s hs p hp
    simp only [splitLoop] at hp
    rcases hi : IndexByte s sep with _ | m
    · simp only [hi, List.mem_singleton] at hp
      subst hp
      exact (indexByte_none _ _).mp hi
    · simp only [hi, List.mem_cons] at hp
      obtain ⟨h1, h2⟩ := indexByte_split s sep m hi
      rcases hp with rfl | hp
      · exact h2
      · refine ih _ ?_ p hp
        have hc : s.count sep = (s.take m).count sep + ((sep :: s.drop (m + 1)).count sep) := by
          conv_lhs => rw [h1]
          rw [List.count_append]
        rw [List.count_cons_self] at hc
        omega

theorem split_no_sep (s : GoString) (sep : Nat) : ∀ p ∈ Split s sep, sep ∉ p := by
  intro p hp
  unfold Split genSplit at hp
  simp only [show ((-1 : Int) = 0) = False by simp, if_false, Count,
    show ((-1 : Int) < 0) = True by simp, if_true] at hp
  have hc : s.count sep ≤ s.length := List.count_le_length _ _
  refine splitLoop_no_sep sep _ s ?_ p hp
  split_ifs <;> omega

theorem isSpace_runeError : unicode.IsSpace utf8.RuneError = false := by decide

theorem isSpace_ascii (c : Nat) (h : c < 0x80) : unicode.IsSpace c = asciiSpace c := by
  unfold unicode.IsSpace asciiSpace
  rw [if_pos (by omega)]
  have h1 : decide (c = 0x85) = false := by simp; omega
  have h2 : decide (c = 0xA0) = false := by simp; omega
  rw [h1, h2]
  simp

theorem getD_drop_head (s : GoString) (j : Nat) (h : j < s.length) :
    s.drop j = s.getD j 0 :: s.drop (j + 1) := by
  rw [List.drop_eq_getElem_cons h]
  simp [List.getD_eq_getElem?_getD, List.getElem?_eq_getElem h]

theorem getD_take (s : GoString) (i k : Nat) (h : k < i) :
    (s.take i).getD k 0 = s.getD k 0 := by
  simp [List.getD_eq_getElem?_getD, List.getElem?_take, h]

theorem drop_take_append (s : GoString) (i j : Nat) (hj : j ≤ i) (hi : i ≤ s.length) :
    s.drop j = (s.take i).drop j ++ s.drop i := by
  conv_lhs => rw [← List.take_append_drop i s]
  rw [List.drop_append_of_le_length (by simp; omega)]

theorem leftOK_take (s : GoString) (e : Nat) (h : LeftOK s) : LeftOK (s.take e) := by
  by_cases he : s.take e = []
  · exact Or.inl he
  · right
    rcases h with h | h
    · subst h
      simp at he
    · rcases utf8.decode_append (s.take e) (s.drop e) he with h1 | h1
      · rw [h1, List.take_append_drop]
        exact h
      · rw [h1]
        exact isSpace_runeError

theorem indexFunc_spec (f : Nat → Bool) (fuel : Nat) :
    ∀ (i : Nat) (s : GoString), s.length ≤ fuel →
      indexFuncFalse f fuel i s = none ∨
        ∃ n, indexFuncFalse f fuel i s = some (i + n) ∧ n < s.length ∧
          f (utf8.DecodeRuneInString (s.drop n)).1 = false := by
  induction fuel with
  | zero => intro i s _; left; rfl
  | succ fuel ih =>
    intro i s hs
    rcases s with _ | ⟨c, t⟩
    · left; rfl
    · simp only [indexFuncFalse]
      by_cases hf : f (utf8.DecodeRuneInString (c :: t)).1 = false
      · right
        exact ⟨0, by simp [hf], by simp, by simpa using hf⟩
      · have hft : f (utf8.DecodeRuneInString (c :: t)).1 = true := by simpa using hf
        rw [if_neg (by simp [hft])]
        have hw := regexp.decode_width_pos c t
        have hle := regexp.decode_width_le (c :: t)
        simp only [List.length_cons] at hs hle
        rcases ih (i + (utf8.DecodeRuneInString (c :: t)).2)
            ((c :: t).drop (utf8.DecodeRuneInString (c :: t)).2)
            (by simp only [List.length_drop, List.length_cons]; omega) with h | ⟨n, h1, h2, h3⟩
        · exact Or.inl h
        · right
          refine ⟨(utf8.DecodeRuneInString (c :: t)).2 + n, ?_, ?_, ?_⟩
          · rw [h1, Nat.add_assoc]
          · simp only [List.length_drop, List.length_cons] at h2 ⊢
            omega
          · rw [List.drop_drop] at h3
            exact h3

theorem trimLeft_spec (s : GoString) (f : Nat → Bool) :
    TrimLeftFunc s f = [] ∨
      ∃ n, n < s.length ∧ TrimLeftFunc s f = s.drop n ∧
        f (utf8.DecodeRuneInString (s.drop n)).1 = false := by
  unfold TrimLeftFunc
  rcases indexFunc_spec f s.length 0 s (le_refl _) with h | ⟨n, h1, h2, h3⟩
  · left; rw [h]
  · right
    rw [h1]
    exact ⟨n, h2, by simp, h3⟩

theorem trimLeft_fix (s : GoString) (f : Nat → Bool) (hs : s ≠ [])
    (h : f (utf8.DecodeRuneInString s).1 = false) : TrimLeftFunc s f = s := by
  rcases s with _ | ⟨c, t⟩
  · exact absurd rfl hs
  · simp [TrimLeftFunc, indexFuncFalse, h]

theorem trimLeft_leftOK (s : GoString) : LeftOK (TrimLeftFunc s unicode.IsSpace) := by
  rcases trimLeft_spec s unicode.IsSpace with h | ⟨n, _, h2, h3⟩
  · exact Or.inl h
  · rw [h2]
    exact Or.inr h3

/-- The loop of `lastIndexFunc`, started at an end `i` that is not followed by a
continuation byte: when it finds a rune, `TrimRightFunc` cuts exactly after that rune. -/
theorem lastIndex_spec (f : Nat → Bool) (hf : f utf8.RuneError = false) (s : GoString)
    (fuel : Nat) :
    ∀ i, i ≤ fuel → i ≤ s.length → (i = s.length ∨ ¬ utf8.isCont (s.getD i 0)) →
      lastIndexFuncFalse f s fuel i = none ∨
        ∃ j e, lastIndexFuncFalse f s fuel i = some j ∧ 1 ≤ e ∧ e ≤ i ∧
          f (utf8.DecodeLastRuneInString (s.take e)).1 = false ∧
          (if utf8.RuneSelf ≤ s.getD j 0 then j + (utf8.DecodeRuneInString (s.drop j)).2
            else j + 1) = e ∧
          (f (utf8.DecodeLastRuneInString (s.take i)).1 = false → e = i) := by
  induction fuel with
  | zero => intro i _ _ _; left; rfl
  | succ fuel ih =>
    intro i hi hlen hinv
    simp only [lastIndexFuncFalse]
    by_cases hpos : 0 < i
    · simp only [hpos, if_true]
      have hx : s.take i ≠ [] := by
        intro h
        have := congrArg List.length h
        simp only [List.length_take, List.length_nil] at this
        omega
      have hxl : (s.take i).length = i := by simp; omega
      obtain ⟨f1, f2, f3, f4⟩ := utf8.decodeLast_cases (s.take i) hx
      rw [hxl] at f2 f3 f4
      generalize hd : utf8.DecodeLastRuneInString (s.take i) = d at f1 f2 f3 f4 ⊢
      have hlast : (s.take i).getD (i - 1) 0 = s.getD (i - 1) 0 := getD_take s i (i - 1) (by omega)
      rw [hlast] at f4
      have hdrop : s.drop (i - d.2) = (s.take i).drop (i - d.2) ++ s.drop i :=
        drop_take_append s i (i - d.2) (by omega) hlen
      have hhead : s.drop (i - d.2) = s.getD (i - d.2) 0 :: s.drop (i - d.2 + 1) :=
        getD_drop_head s (i - d.2) (by omega)
      by_cases hfd : f d.1 = false
      · right
        simp only [hfd, if_true]
        refine ⟨i - d.2, i, rfl, hpos, le_refl _, by rw [hd]; exact hfd, ?_, fun _ => rfl⟩
        by_cases h2 : 2 ≤ d.2
        · have hdec := f3 h2
          have hloc : utf8.DecodeRuneInString (s.drop (i - d.2)) = d := by
            rw [hdrop, utf8.decode_local _ _ (by rw [hdec]; exact h2), hdec]
          have hge : utf8.RuneSelf ≤ s.getD (i - d.2) 0 := by
            by_contra hlt
            simp only [utf8.RuneSelf, not_le] at hlt
            rw [hhead, utf8.decode_ascii _ _ hlt] at hloc
            rw [← hloc] at h2
            simp at h2
          rw [if_pos hge, hloc]
          omega
        · have h1 : d.2 = 1 := by omega
          rw [h1]
          rcases f4 h1 with ⟨hb, _⟩ | ⟨hb, _⟩
          · rw [if_neg (by simp only [utf8.RuneSelf]; omega)]
            omega
          · rw [if_pos (by simp only [utf8.RuneSelf]; omega)]
            have hw : (utf8.DecodeRuneInString (s.drop (i - 1))).2 = 1 := by
              rw [getD_drop_head s (i - 1) (by omega), show i - 1 + 1 = i by omega]
              apply utf8.decode_width_one
              by_cases hil : i = s.length
              · left
                rw [hil]
                simp
              · right
                rcases hinv with hinv | hinv
                · exact absurd hinv hil
                · exact ⟨s.getD i 0, s.drop (i + 1), getD_drop_head s i (by omega), hinv⟩
            rw [hw]
            omega
      · simp only [hfd, if_false]
        have hfd2 : f d.1 = true := by simpa using hfd
        have hnc : ¬ utf8.isCont (s.getD (i - d.2) 0) := by
          by_cases h2 : 2 ≤ d.2
          · have hdec := f3 h2
            have hxd : (s.take i).drop (i - d.2) =
                s.getD (i - d.2) 0 :: (s.take i).drop (i - d.2 + 1) := by
              rw [getD_drop_head (s.take i) (i - d.2) (by rw [hxl]; omega),
                getD_take s i (i - d.2) (by omega)]
            rw [hxd] at hdec
            exact utf8.decode_lead _ _ (by rw [hdec]; exact h2)
          · have h1 : d.2 = 1 := by omega
            rcases f4 h1 with ⟨hb, _⟩ | ⟨_, hr⟩
            · rw [h1]
              unfold utf8.isCont
              omega
            · rw [hr, hf] at hfd2
              cases hfd2
        rcases ih (i - d.2) (by omega) (by omega) (Or.inr hnc) with h | ⟨j, e, h1, h2, h3, h4, h5, _⟩
        · exact Or.inl h
        · right
          exact ⟨j, e, h1, h2, by omega, h4, h5, fun hc => absurd hc (by simp [hfd2])⟩
    · left
      simp [hpos]

theorem trimRight_spec (s : GoString) :
    TrimRightFunc s unicode.IsSpace = [] ∨
      ∃ e, 1 ≤ e ∧ e ≤ s.length ∧ TrimRightFunc s unicode.IsSpace = s.take e ∧
        unicode.IsSpace (utf8.DecodeLastRuneInString (s.take e)).1 = false ∧
        (unicode.IsSpace (utf8.DecodeLastRuneInString s).1 = false → e = s.length) := by
  unfold TrimRightFunc
  rcases lastIndex_spec unicode.IsSpace isSpace_runeError s s.length s.length (le_refl _)
      (le_refl _) (Or.inl rfl) with h | ⟨j, e, h1, h2, h3, h4, h5, h6⟩
  · left
    rw [h]
    simp
  · right
    rw [h1]
    refine ⟨e, h2, h3, ?_, h4, fun hc => h6 (by rw [List.take_length]; exact hc)⟩
    simp only
    split_ifs with hj
    · rw [if_pos hj] at h5
      rw [h5]
    · rw [if_neg hj] at h5
      rw [h5]

theorem trimRight_fix (s : GoString) (hs : s ≠ [])
    (h : unicode.IsSpace (utf8.DecodeLastRuneInString s).1 = false) :
    TrimRightFunc s unicode.IsSpace = s := by
  unfold TrimRightFunc
  rcases lastIndex_spec unicode.IsSpace isSpace_runeError s s.length s.length (le_refl _)
      (le_refl _) (Or.inl rfl) with h2 | ⟨j, e, h2, _, _, _, h6, h7⟩
  · exfalso
    have hl : 0 < s.length := List.length_pos.mpr hs
    obtain ⟨n, hn⟩ : ∃ n, s.length = n + 1 := ⟨s.length - 1, by omega⟩
    have h3 : lastIndexFuncFalse unicode.IsSpace s (n + 1) s.length = none := by
      rw [← hn]; exact h2
    simp only [lastIndexFuncFalse, hl, if_true, List.take_length, h] at h3
    cases h3
  · rw [h2]
    have he := h7 (by rw [List.take_length]; exact h)
    simp only
    split_ifs with hj
    · rw [if_pos hj] at h6
      rw [h6, he, List.take_length]
    · rw [if_neg hj] at h6
      rw [h6, he, List.take_length]

theorem trimRight_rightOK (s : GoString) : RightOK (TrimRightFunc s unicode.IsSpace) := by
  rcases trimRight_spec s with h | ⟨e, _, _, h3, h4, _⟩
  · exact Or.inl h
  · rw [h3]
    exact Or.inr h4

theorem trimRight_leftOK (s : GoString) (h : LeftOK s) :
    LeftOK (TrimRightFunc s unicode.IsSpace) := by
  rcases trimRight_spec s with h1 | ⟨e, _, _, h3, _, _⟩
  · exact Or.inl h1
  · rw [h3]
    exact leftOK_take s e h

theorem decodeLast_ascii (s : GoString) (hs : s ≠ []) (h : s.getD (s.length - 1) 0 < 0x80) :
    utf8.DecodeLastRuneInString s = (s.getD (s.length - 1) 0, 1) := by
  have hl : 0 < s.length := List.length_pos.mpr hs
  unfold utf8.DecodeLastRuneInString
  simp only [show ¬ (s.length = 0) by omega, if_false, utf8.RuneSelf, h, if_true]

theorem trimSpaceRight_ok (fuel : Nat) :
    ∀ s : GoString, LeftOK s →
      LeftOK (trimSpaceRight fuel s) ∧ (s.length ≤ fuel → RightOK (trimSpaceRight fuel s)) := by
  induction fuel with
  | zero =>
    intro s hs
    simp only [trimSpaceRight]
    exact ⟨hs, fun h => Or.inl (List.length_eq_zero.mp (by omega))⟩
  | succ fuel ih =>
    intro s hs
    simp only [trimSpaceRight]
    by_cases hpos : 0 < s.length
    · simp only [hpos, if_true]
      have hne : s ≠ [] := List.length_pos.mp hpos
      by_cases hc : utf8.RuneSelf ≤ s.getD (s.length - 1) 0
      · simp only [hc, if_true]
        exact ⟨trimRight_leftOK s hs, fun _ => trimRight_rightOK s⟩
      · simp only [hc, if_false]
        have hlt : s.getD (s.length - 1) 0 < 0x80 := by
          simp only [utf8.RuneSelf] at hc
          omega
        by_cases ha : asciiSpace (s.getD (s.length - 1) 0) = false
        · simp only [ha, if_true]
          refine ⟨hs, fun _ => Or.inr ?_⟩
          rw [decodeLast_ascii s hne hlt, isSpace_ascii _ hlt]
          exact ha
        · simp only [ha, if_false]
          obtain ⟨h1, h2⟩ := ih (s.take (s.length - 1)) (leftOK_take s _ hs)
          exact ⟨h1, fun hl => h2 (by simp only [List.length_take]; omega)⟩
    · simp only [hpos, if_false]
      exact ⟨hs, fun _ => Or.inl (List.length_eq_zero.mp (by omega))⟩

theorem trimSpaceRight_fix (fuel : Nat) (s : GoString) (hs : s ≠ []) (h : RightOK s) :
    trimSpaceRight (fuel + 1) s = s := by
  have hl : 0 < s.length := List.length_pos.mpr hs
  rcases h with h | h
  · exact absurd h hs
  simp only [trimSpaceRight, hl, if_true]
  by_cases hc : utf8.RuneSelf ≤ s.getD (s.length - 1) 0
  · simp only [hc, if_true]
    exact trimRight_fix s hs h
  · simp only [hc, if_false]
    have hlt : s.getD (s.length - 1) 0 < 0x80 := by
      simp only [utf8.RuneSelf] at hc
      omega
    rw [decodeLast_ascii s hs hlt, isSpace_ascii _ hlt] at h
    rw [if_pos h]

/-- What `TrimSpace` returns has no space at either end. -/
theorem trimSpace_ok (s : GoString) : LeftOK (TrimSpace s) ∧ RightOK (TrimSpace s) := by
  induction s with
  | nil => exact ⟨Or.inl rfl, Or.inl rfl⟩
  | cons c t ih =>
    simp only [TrimSpace]
    by_cases hc : utf8.RuneSelf ≤ c
    · simp only [hc, if_true, TrimFunc]
      exact ⟨trimRight_leftOK _ (trimLeft_leftOK _), trimRight_rightOK _⟩
    · simp only [hc, if_false]
      have hlt : c < 0x80 := by
        simp only [utf8.RuneSelf] at hc
        omega
      by_cases ha : asciiSpace c = false
      · simp only [ha, if_true]
        have hleft : LeftOK (c :: t) := by
          right
          rw [utf8.decode_ascii c t hlt, isSpace_ascii _ hlt]
          exact ha
        obtain ⟨h1, h2⟩ := trimSpaceRight_ok (c :: t).length (c :: t) hleft
        exact ⟨h1, h2 (le_refl _)⟩
      · simp only [ha, if_false]
        exact ih

/-- A string with no space at either end is returned unchanged. -/
theorem trimSpace_fix (s : GoString) (hl : LeftOK s) (hr : RightOK s) : TrimSpace s = s := by
  rcases s with _ | ⟨c, t⟩
  · rfl
  · rcases hl with hl | hl
    · cases hl
    simp only [TrimSpace]
    by_cases hc : utf8.RuneSelf ≤ c
    · simp only [hc, if_true, TrimFunc]
      rw [trimLeft_fix _ _ (by simp) hl]
      rcases hr with hr | hr
      · cases hr
      · exact trimRight_fix _ (by simp) hr
    · simp only [hc, if_false]
      have hlt : c < 0x80 := by
        simp only [utf8.RuneSelf] at hc
        omega
      rw [utf8.decode_ascii c t hlt, isSpace_ascii _ hlt] at hl
      simp only [hl, if_true, List.length_cons]
      exact trimSpaceRight_fix _ _ (by simp) hr

/-- `TrimSpace` is idempotent. -/
theorem trimSpace_idem (s : GoString) : TrimSpace (TrimSpace s) = TrimSpace s :=
  trimSpace_fix _ (trimSpace_ok s).1 (trimSpace_ok s).2

theorem mem_trimRight (s : GoString) (f : Nat → Bool) : ∀ b ∈ TrimRightFunc s f, b ∈ s := by
  intro b hb
  unfold TrimRightFunc at hb
  split at hb
  · split_ifs at hb <;> exact List.mem_of_mem_take hb
  · exact List.mem_of_mem_take hb

theorem mem_trimLeft (s : GoString) (f : Nat → Bool) : ∀ b ∈ TrimLeftFunc s f, b ∈ s := by
  intro b hb
  unfold TrimLeftFunc at hb
  split at hb
  · simp at hb
  · exact List.mem_of_mem_drop hb

theorem mem_trimSpaceRight (fuel : Nat) : ∀ s : GoString, ∀ b ∈ trimSpaceRight fuel s, b ∈ s := by
  induction fuel with
  | zero => intro s b hb; exact hb
  | succ fuel ih =>
    intro s b hb
    simp only [trimSpaceRight] at hb
    split_ifs at hb
    · exact mem_trimRight s _ b hb
    · exact hb
    · exact List.mem_of_mem_take (ih _ b hb)
    · exact hb

/-- `TrimSpace` only removes bytes. -/
theorem mem_trimSpace (s : GoString) : ∀ b ∈ TrimSpace s, b ∈ s := by
  induction s with
  | nil => intro b hb; exact hb
  | cons c t ih =>
    intro b hb
    simp only [TrimSpace] at hb
    split_ifs at hb
    · exact mem_trimLeft _ _ b (mem_trimRight _ _ b hb)
    · exact mem_trimSpaceRight _ _ b hb
    · exact List.mem_cons_of_mem _ (ih b hb)

end strings

/-! ## Facts about `filepath.Join` -/

namespace filepath

theorem splitOn_single (name : GoString) (sep : Nat) (h : sep ∉ name) :
    name.splitOn sep = [name] := by
  unfold List.splitOn
  apply List.splitOnP_eq_single
  intro x hx hb
  simp only [beq_iff_eq] at hb
  exact h (hb ▸ hx)

theorem splitOn_append_sep (dir name : GoString) (sep : Nat) (h : sep ∉ name) :
    (dir ++ sep :: name).splitOn sep = dir.splitOn sep ++ [name] := by
  induction dir with
  | nil =>
    have h1 := splitOn_single name sep h
    unfold List.splitOn at h1 ⊢
    simp [List.splitOnP_cons, h1]
  | cons b t ih =>
    unfold List.splitOn at ih ⊢
    rw [List.cons_append, List.splitOnP_cons, List.splitOnP_cons, ih]
    by_cases hb : b = sep
    · simp [hb]
    · simp only [beq_iff_eq, hb, if_false]
      rcases hs : List.splitOnP (fun x => x == sep) t with _ | ⟨p, ps⟩
      · exact absurd hs (List.splitOnP_ne_nil _ _)
      · simp [List.modifyHead]

theorem intercalate_snoc (out : List GoString) (name : GoString) (sep : Nat) :
    [sep].intercalate (out ++ [name]) =
      if out = [] then name else [sep].intercalate out ++ sep :: name := by
  induction out with
  | nil => simp [List.intercalate]
  | cons e rest ih =>
    rcases rest with _ | ⟨e2, rest2⟩
    · simp [List.intercalate, List.intersperse]
    · simp only [List.intercalate, List.cons_append, List.intersperse, List.flatten_cons,
        reduceCtorEq, if_false, List.append_assoc] at ih ⊢
      have ih2 : (List.intersperse [sep] (e2 :: rest2.append [name])).flatten =
          (List.intersperse [sep] (e2 :: rest2)).flatten ++ sep :: name := ih
      rw [ih2]

/-- The elements `Clean` keeps are not empty, are not `.` and hold no separator. -/
theorem cleanStep_elems (rooted : Bool) (out : List GoString) (e : GoString)
    (hout : ∀ x ∈ out, x ≠ [] ∧ x ≠ [0x2E] ∧ slash ∉ x) (he : slash ∉ e) :
    ∀ x ∈ cleanStep rooted out e, x ≠ [] ∧ x ≠ [0x2E] ∧ slash ∉ x := by
  intro x hx
  have hsnoc : x ∈ out ++ [e] → e ≠ [] → e ≠ [0x2E] → x ≠ [] ∧ x ≠ [0x2E] ∧ slash ∉ x := by
    intro hm e0 e1
    rcases List.mem_append.mp hm with hm | hm
    · exact hout x hm
    · simp only [List.mem_singleton] at hm
      subst hm
      exact ⟨e0, e1, he⟩
  unfold cleanStep at hx
  by_cases h1 : e = [] ∨ e = [0x2E]
  · rw [if_pos h1] at hx
    exact hout x hx
  · rw [if_neg h1] at hx
    have e0 : e ≠ [] := fun h => h1 (Or.inl h)
    have e1 : e ≠ [0x2E] := fun h => h1 (Or.inr h)
    by_cases h2 : e = [0x2E, 0x2E]
    · rw [if_pos h2] at hx
      rcases hl : out.getLast? with _ | l
      · rw [hl] at hx
        simp only at hx
        by_cases hr : rooted = true
        · rw [if_pos hr] at hx
          exact hout x hx
        · rw [if_neg hr] at hx
          exact hsnoc hx e0 e1
      · rw [hl] at hx
        simp only at hx
        by_cases hd : l = [0x2E, 0x2E]
        · rw [if_pos hd] at hx
          exact hsnoc hx e0 e1
        · rw [if_neg hd] at hx
          exact hout x (List.mem_of_mem_dropLast hx)
    · rw [if_neg h2] at hx
      exact hsnoc hx e0 e1

theorem clean_fold_elems (rooted : Bool) (ps : List GoString) (hps : ∀ p ∈ ps, slash ∉ p) :
    ∀ out : List GoString, (∀ x ∈ out, x ≠ [] ∧ x ≠ [0x2E] ∧ slash ∉ x) →
      ∀ x ∈ ps.foldl (cleanStep rooted) out, x ≠ [] ∧ x ≠ [0x2E] ∧ slash ∉ x := by
  induction ps with
  | nil => intro out h; exact h
  | cons p ps ih =>
    intro out h
    rw [List.foldl_cons]
    exact ih (fun q hq => hps q (by simp [hq])) _
      (cleanStep_elems rooted out p h (hps p (by simp)))

theorem intercalate_elems (out : List GoString) (hne : out ≠ [])
    (hout : ∀ x ∈ out, x ≠ [] ∧ x ≠ [0x2E] ∧ slash ∉ x) :
    [slash].intercalate out ≠ [] ∧ [slash].intercalate out ≠ [0x2E] ∧
      [slash].intercalate out ≠ [slash] := by
  rcases out with _ | ⟨e, _ | ⟨e2, rest⟩⟩
  · exact absurd rfl hne
  · obtain ⟨h1, h2, h3⟩ := hout e (by simp)
    simp only [List.intercalate, List.intersperse, List.flatten_cons, List.flatten_nil,
      List.append_nil]
    refine ⟨h1, h2, fun h => h3 (by rw [h]; simp)⟩
  · obtain ⟨h1, _, _⟩ := hout e (by simp)
    rcases e with _ | ⟨c, e1⟩
    · exact absurd rfl h1
    · simp [List.intercalate, List.intersperse]

/-- A name that is a plain path element (not empty, not `.` or `..`, without separator)
joined to a directory is the last element of the joined path, right after the cleaned
directory. -/
theorem join_plain (dir name : GoString) (hs : slash ∉ name) (h0 : name ≠ [])
    (h1 : name ≠ [0x2E]) (h2 : name ≠ [0x2E, 0x2E]) :
    Join dir name = dirText dir ++ name := by
  have hstep : ∀ (r : Bool) (out : List GoString), cleanStep r out name = out ++ [name] := by
    intro r out
    unfold cleanStep
    rw [if_neg (by simp [h0, h1]), if_neg h2]
  rcases dir with _ | ⟨c, t⟩
  · rcases name with _ | ⟨n0, n1⟩
    · exact absurd rfl h0
    · have hn0 : n0 ≠ slash := fun e => hs (by simp [e])
      simp only [Join, dirText, ne_eq, not_true_eq_false, if_false, true_or, if_true,
        List.nil_append, reduceCtorEq, not_false_eq_true, Clean, hn0, decide_False,
        splitOn_single _ _ hs, List.foldl_cons, List.foldl_nil, hstep, Bool.false_eq_true]
      simp [List.intercalate, List.intersperse]
  · have hsplit := splitOn_append_sep (c :: t) name slash hs
    have helems := clean_fold_elems (decide (c = slash)) ((c :: t).splitOn slash)
      (by
        intro p hp
        rw [← strings.split_eq_splitOn] at hp
        exact strings.split_no_sep _ _ p hp) [] (by simp)
    generalize hout : ((c :: t).splitOn slash).foldl (cleanStep (decide (c = slash))) [] = out
      at helems
    have hclean : Clean (c :: t) =
        if (if decide (c = slash) = true then [slash] else []) ++ [slash].intercalate out = []
        then [0x2E]
        else (if decide (c = slash) = true then [slash] else []) ++ [slash].intercalate out := by
      simp only [Clean, hout]
    have hjoin : Join (c :: t) name =
        (if decide (c = slash) = true then [slash] else []) ++
          (if out = [] then name else [slash].intercalate out ++ slash :: name) := by
      simp only [Join, ne_eq, reduceCtorEq, not_false_eq_true, if_true, List.cons_append, Clean]
      rw [← List.cons_append, hsplit, List.foldl_append, List.foldl_cons, List.foldl_nil, hout,
        hstep, intercalate_snoc]
      rw [if_neg]
      by_cases ho : out = []
      · simp [ho, h0]
      · simp [ho]
    rw [hjoin]
    unfold dirText
    rw [hclean]
    by_cases hr : c = slash
    · by_cases ho : out = []
      · simp [hr, ho, List.intercalate, slash]
      · obtain ⟨i1, i2, i3⟩ := intercalate_elems out ho helems
        rcases hi : [slash].intercalate out with _ | ⟨x, xs⟩
        · exact absurd hi i1
        · simp [hr, ho, slash]
    · by_cases ho : out = []
      · simp [hr, ho, List.intercalate]
      · obtain ⟨i1, i2, i3⟩ := intercalate_elems out ho helems
        simp [hr, ho, i1, i2, i3]

end filepath

/-! ## `sanitizeFileName` -/

theorem splitBy_loop_append {α : Type} (R : α → α → Bool) (l : List α) (a : α)
    (g : List α) (gs : List (List α)) :
    List.splitBy.loop R l a g gs = gs.reverse ++ List.splitBy.loop R l a g [] := by
  induction l generalizing a g gs with
  | nil => simp [List.splitBy.loop]
  | cons b l ih =>
    simp only [List.splitBy.loop]
    cases R a b
    · simp only []
      rw [ih b [] ((a :: g).reverse :: gs), ih b [] [(a :: g).reverse]]
      simp
    · simp only []
      exact ih b (a :: g) gs

/-- The first group of a split starts with the first element, and the group under
construction is put in front of it. -/
theorem splitBy_loop_shape {α : Type} (R : α → α → Bool) (l : List α) (a : α) :
    ∃ h t, ∀ g, List.splitBy.loop R l a g [] = (g.reverse ++ a :: h) :: t := by
  induction l generalizing a with
  | nil => exact ⟨[], [], fun g => by simp [List.splitBy.loop]⟩
  | cons b l ih =>
    obtain ⟨h, t, hl⟩ := ih b
    cases hR : R a b
    · refine ⟨[], (b :: h) :: t, fun g => ?_⟩
      simp only [List.splitBy.loop, hR]
      rw [splitBy_loop_append, hl []]
      simp
    · refine ⟨b :: h, t, fun g => ?_⟩
      simp only [List.splitBy.loop, hR]
      rw [hl (a :: g)]
      simp

theorem splitBy_cons_shape {α : Type} (R : α → α → Bool) (l : List α) (a : α) :
    ∃ h t, List.splitBy R (a :: l) = (a :: h) :: t := by
  obtain ⟨h, t, hl⟩ := splitBy_loop_shape R l a
  exact ⟨h, t, by simpa [List.splitBy] using hl []⟩

theorem splitBy_cons_cons_false {α : Type} (R : α → α → Bool) (l : List α) (a b : α)
    (hR : R a b = false) :
    List.splitBy R (a :: b :: l) = [a] :: List.splitBy R (b :: l) := by
  simp only [List.splitBy, List.splitBy.loop, hR]
  rw [splitBy_loop_append]
  simp

theorem splitBy_cons_cons_true {α : Type} (R : α → α → Bool) (l : List α) (a b : α)
    (hR : R a b = true) (h : List α) (t : List (List α))
    (hs : List.splitBy R (b :: l) = (b :: h) :: t) :
    List.splitBy R (a :: b :: l) = (a :: b :: h) :: t := by
  obtain ⟨h2, t2, hl⟩ := splitBy_loop_shape R l b
  have e1 := hl []
  simp only [List.splitBy] at hs
  rw [hs] at e1
  simp only [List.reverse_nil, List.nil_append, List.cons.injEq, true_and] at e1
  simp only [List.splitBy, List.splitBy.loop, hR]
  rw [hl [a]]
  simp [e1.1, e1.2]

/-- The split-based specification is the one-pass collapse. -/
theorem spec_eq_collapse (l : List (Nat × GoString)) :
    ∀ a : Nat × GoString,
      (List.splitBy bothOutside (a :: l)).flatMap specPiece =
        if regexp.isWordRune a.1 then a.2 ++ collapse false l
        else [underscore] ++ collapse true l := by
  induction l with
  | nil =>
    intro a
    rcases a with ⟨r, bs⟩
    by_cases hw : regexp.isWordRune r = true <;>
      simp [List.splitBy, List.splitBy.loop, specPiece, collapse, hw]
  | cons b l ih =>
    intro a
    rcases a with ⟨r, bs⟩
    rcases b with ⟨r2, bs2⟩
    have ihb := ih (r2, bs2)
    by_cases hw : regexp.isWordRune r = true
    · have hR : bothOutside (r, bs) (r2, bs2) = false := by simp [bothOutside, hw]
      rw [splitBy_cons_cons_false _ _ _ _ hR]
      simp only [List.flatMap_cons, ihb, specPiece, hw, if_true]
      by_cases hw2 : regexp.isWordRune r2 = true <;> simp [collapse, hw2]
    · simp only [Bool.not_eq_true] at hw
      by_cases hw2 : regexp.isWordRune r2 = true
      · have hR : bothOutside (r, bs) (r2, bs2) = false := by simp [bothOutside, hw, hw2]
        rw [splitBy_cons_cons_false _ _ _ _ hR]
        simp only [List.flatMap_cons, ihb, specPiece, hw, hw2, if_true]
        simp [collapse, hw2]
      · simp only [Bool.not_eq_true] at hw2
        have hR : bothOutside (r, bs) (r2, bs2) = true := by simp [bothOutside, hw, hw2]
        obtain ⟨h, t, hs⟩ := splitBy_cons_shape bothOutside l (r2, bs2)
        rw [splitBy_cons_cons_true _ _ _ _ hR h t hs]
        rw [hs] at ihb
        simp only [List.flatMap_cons, specPiece, hw2, hw, Bool.false_eq_true, if_false] at ihb ⊢
        rw [ihb]
        simp [collapse, hw2]

theorem sanitizeSpec_eq_collapse (s : GoString) :
    sanitizeSpec s = collapse false (utf8.runes s.length s) := by
  unfold sanitizeSpec
  rcases h : utf8.runes s.length s with _ | ⟨a, l⟩
  · simp [List.splitBy, collapse]
  · rw [spec_eq_collapse l a]
    rcases a with ⟨r, bs⟩
    by_cases hw : regexp.isWordRune r = true <;> simp [collapse, hw]

theorem runes_nil (fuel : Nat) : utf8.runes fuel [] = [] := by
  cases fuel <;> rfl

theorem runes_cons (fuel : Nat) (c : Nat) (t : GoString) :
    utf8.runes (fuel + 1) (c :: t) =
      ((utf8.DecodeRuneInString (c :: t)).1,
        (c :: t).take (utf8.DecodeRuneInString (c :: t)).2) ::
        utf8.runes fuel ((c :: t).drop (utf8.DecodeRuneInString (c :: t)).2) := rfl

/-- More fuel than the length of the string does not change its runes. -/
theorem runes_fuel (fuel : Nat) :
    ∀ s : GoString, s.length ≤ fuel → utf8.runes fuel s = utf8.runes s.length s := by
  induction fuel using Nat.strong_induction_on with
  | _ fuel ih =>
    intro s hs
    rcases s with _ | ⟨c, t⟩
    · simp [runes_nil]
    · obtain ⟨f, rfl⟩ : ∃ f, fuel = f + 1 := ⟨fuel - 1, by simp at hs; omega⟩
      simp only [List.length_cons] at hs ⊢
      rw [runes_cons, runes_cons]
      have hw := regexp.decode_width_pos c t
      have hl : ((c :: t).drop (utf8.DecodeRuneInString (c :: t)).2).length ≤ t.length := by
        simp only [List.length_drop, List.length_cons]; omega
      rw [ih f (by omega) _ (by omega), ih t.length (by omega) _ hl]

/-- Inside a run, the collapse resumes after the text matched by `[^\w]+`. -/
theorem collapse_skip (n : Nat) :
    ∀ s : GoString, s.length ≤ n →
      collapse true (utf8.runes s.length s) =
        collapse false
          (utf8.runes (s.drop (regexp.matchClassPlus regexp.notWordRune s.length s)).length
            (s.drop (regexp.matchClassPlus regexp.notWordRune s.length s))) := by
  induction n with
  | zero =>
    intro s hs
    have : s = [] := List.length_eq_zero.mp (by omega)
    subst this
    simp [runes_nil, collapse]
  | succ n ih =>
    intro s hs
    rcases s with _ | ⟨c, t⟩
    · simp [runes_nil, collapse]
    · simp only [List.length_cons] at hs
      have hw := regexp.decode_width_pos c t
      have hl : ((c :: t).drop (utf8.DecodeRuneInString (c :: t)).2).length ≤ t.length := by
        simp only [List.length_drop, List.length_cons]; omega
      simp only [List.length_cons]
      rw [regexp.matchClassPlus_cons]
      by_cases hcls : regexp.notWordRune (utf8.DecodeRuneInString (c :: t)).1 = true
      · have hnw : regexp.isWordRune (utf8.DecodeRuneInString (c :: t)).1 = false := by
          simpa [regexp.notWordRune] using hcls
        rw [runes_cons, runes_fuel _ _ hl, regexp.matchClassPlus_fuel _ _ _ hl]
        simp only [hcls, if_true, collapse, hnw, Bool.false_eq_true, if_false,
          List.nil_append]
        rw [ih _ (by omega), List.drop_drop]
      · have hwd : regexp.isWordRune (utf8.DecodeRuneInString (c :: t)).1 = true := by
          simpa [regexp.notWordRune] using hcls
        simp only [hcls, if_false, List.drop_zero, List.length_cons]
        rw [runes_cons]
        simp [collapse, hwd]

/-- The replacement loop computes the one-pass collapse of the runes of the text. -/
theorem replaceAll_eq_collapse (fuel : Nat) :
    ∀ s : GoString, s.length ≤ fuel →
      regexp.replaceAll regexp.notWordRune [underscore] fuel s =
        collapse false (utf8.runes s.length s) := by
  induction fuel with
  | zero =>
    intro s hs
    have : s = [] := List.length_eq_zero.mp (by omega)
    subst this
    simp [regexp.replaceAll, runes_nil, collapse]
  | succ f ih =>
    intro s hs
    rcases s with _ | ⟨c, t⟩
    · simp [regexp.replaceAll_nil, runes_nil, collapse]
    · simp only [List.length_cons] at hs
      have hw := regexp.decode_width_pos c t
      have hl : ((c :: t).drop (utf8.DecodeRuneInString (c :: t)).2).length ≤ t.length := by
        simp only [List.length_drop, List.length_cons]; omega
      rw [regexp.replaceAll_cons]
      simp only [List.length_cons]
      rw [runes_cons, runes_fuel _ _ hl]
      split_ifs with hm
      · obtain ⟨hc, hd⟩ := regexp.no_match_word c t _ hm
        rw [ih _ (by omega)]
        simp [collapse, hd, hc]
      · have hcls := regexp.match_pos c t _ hm
        have hnw : regexp.isWordRune (utf8.DecodeRuneInString (c :: t)).1 = false := by
          simpa [regexp.notWordRune] using hcls
        rw [ih _ (by
          have := regexp.matchClassPlus_le regexp.notWordRune (t.length + 1) (c :: t)
          simp only [List.length_drop, List.length_cons]; omega)]
        simp only [collapse, hnw, Bool.false_eq_true, if_false]
        rw [collapse_skip _ _ (le_refl _)]
        rw [regexp.matchClassPlus_cons]
        simp only [hcls, if_true]
        rw [regexp.matchClassPlus_fuel _ _ _ hl, List.drop_drop, Nat.add_comm]

theorem lit_underscore : lit "_" = [underscore] := by decide

/-- **C1**: for every input string (the empty string, non-ASCII bytes, control
characters and invalid UTF-8 included), every byte of `sanitizeFileName s` is one of
`0-9`, `A-Z`, `a-z` or `_`. -/
theorem sanitizeFileName_charset (s : GoString) :
    ∀ b ∈ sanitizeFileName s,
      (0x30 ≤ b ∧ b ≤ 0x39) ∨ (0x41 ≤ b ∧ b ≤ 0x5A) ∨ (0x61 ≤ b ∧ b ≤ 0x7A) ∨ b = 0x5F := by
  intro b hb
  have h := regexp.replaceAll_word (lit "_") (by decide) s.length s (le_refl _) b hb
  simp only [regexp.isWordRune, Bool.or_eq_true, Bool.and_eq_true, decide_eq_true_eq] at h
  omega

/-- C1 at the input `é/\n a` and the byte `a` of its image. -/
theorem sanitizeFileName_charset_witness :
    0x61 ∈ sanitizeFileName (lit "é/\n a") ∧
      (((0x30 : Nat) ≤ 0x61 ∧ (0x61 : Nat) ≤ 0x39) ∨ ((0x41 : Nat) ≤ 0x61 ∧ (0x61 : Nat) ≤ 0x5A) ∨
        ((0x61 : Nat) ≤ 0x61 ∧ (0x61 : Nat) ≤ 0x7A) ∨ (0x61 : Nat) = 0x5F) :=
  ⟨by decide, sanitizeFileName_charset (lit "é/\n a") 0x61 (by decide)⟩

/-- **C2**: for every input string, `sanitizeFileName s` is the string obtained from `s`
by keeping every character of `[A-Za-z0-9_]` in place and replacing every maximal run of
other characters by exactly one underscore (`sanitizeSpec`); in particular
`http://a.com/x?y=1` becomes `http_a_com_x_y_1`. -/
theorem sanitizeFileName_eq_spec :
    (∀ s : GoString, sanitizeFileName s = sanitizeSpec s) ∧
      sanitizeFileName (lit "http://a.com/x?y=1") = lit "http_a_com_x_y_1" := by
  refine ⟨fun s => ?_, by decide⟩
  rw [sanitizeSpec_eq_collapse]
  unfold sanitizeFileName regexp.ReplaceAllString
  rw [lit_underscore]
  exact replaceAll_eq_collapse s.length s (le_refl _)

/-! ## The output file -/

theorem lit_format : lit "%s_%s.png" = [0x25, 0x73, 0x5F, 0x25, 0x73, 0x2E, 0x70, 0x6E, 0x67] := by
  decide

theorem lit_png : lit ".png" = [0x2E, 0x70, 0x6E, 0x67] := by decide

theorem fileName_eq (u stamp : GoString) :
    fileName u stamp = sanitizeFileName u ++ lit "_" ++ stamp ++ lit ".png" := by
  simp [fileName, lit_format, lit_png, lit_underscore, fmt.Sprintf, underscore]

theorem stamp_bytes (stamp : GoString) (hs : isStamp stamp = true) :
    ∀ b ∈ stamp, isDigit b = true ∨ b = underscore := by
  simp only [isStamp, Bool.and_eq_true, beq_iff_eq, List.all_eq_true] at hs
  obtain ⟨⟨⟨hlen, h1⟩, h2⟩, h3⟩ := hs
  intro b hb
  have e : stamp = stamp.take 8 ++ (stamp.getD 8 0 :: stamp.drop 9) := by
    conv_lhs => rw [← List.take_append_drop 8 stamp]
    congr 1
    rw [List.drop_eq_getElem_cons (by omega)]
    simp [List.getD_eq_getElem?_getD, List.getElem?_eq_getElem (show 8 < stamp.length by omega)]
  rw [e] at hb
  rcases List.mem_append.mp hb with hb | hb
  · exact Or.inl (h1 b hb)
  · rcases List.mem_cons.mp hb with hb | hb
    · exact Or.inr (hb.trans h2)
    · exact Or.inl (h3 b hb)

theorem fileName_plain (u stamp : GoString)
    (hall : ∀ b ∈ fileName u stamp, regexp.isWordRune b = true ∨ b = 0x2E) :
    filepath.slash ∉ fileName u stamp ∧ fileName u stamp ≠ [] ∧ fileName u stamp ≠ [0x2E] ∧
      fileName u stamp ≠ [0x2E, 0x2E] := by
  have hlen : 4 ≤ (fileName u stamp).length := by
    rw [fileName_eq, lit_png]
    simp only [List.length_append, List.length_cons, List.length_nil]
    omega
  refine ⟨?_, ?_, ?_, ?_⟩
  · intro hm
    rcases hall _ hm with h | h
    · simp [regexp.isWordRune, filepath.slash] at h
    · simp [filepath.slash] at h
  · intro h
    rw [h] at hlen
    simp at hlen
  · intro h
    rw [h] at hlen
    simp at hlen
  · intro h
    rw [h] at hlen
    simp at hlen

/-- **C8**: for every URL `u`, output directory and capture time rendered as
`YYYYMMDD_HHMMSS`, the file name built by `captureScreenshot` is
`sanitizeFileName u ++ "_" ++ stamp ++ ".png"`; it is a stem of bytes in `[A-Za-z0-9_]`
followed by `.png`, so it holds exactly one dot and neither `/` nor `\`; and the path
handed to `os.WriteFile` is that name directly inside the cleaned output directory,
whatever the URL contains. -/
theorem fileName_safe (env : CaptureEnv) (u outputDir : GoString)
    (hs : isStamp env.stamp = true) (h1 : env.run1 = RunResult.ok)
    (h2 : env.run2 = RunResult.ok) :
    fileName u env.stamp = sanitizeFileName u ++ lit "_" ++ env.stamp ++ lit ".png" ∧
      (∀ b ∈ sanitizeFileName u ++ lit "_" ++ env.stamp, regexp.isWordRune b = true) ∧
      (∀ b ∈ fileName u env.stamp, regexp.isWordRune b = true ∨ b = 0x2E) ∧
      (fileName u env.stamp).count 0x2E = 1 ∧
      (∀ b ∈ fileName u env.stamp, b ≠ 0x2F ∧ b ≠ 0x5C) ∧
      (captureScreenshot env u outputDir).filePath =
        some (filepath.dirText outputDir ++ fileName u env.stamp) := by
  have hstem : ∀ b ∈ sanitizeFileName u ++ lit "_" ++ env.stamp,
      regexp.isWordRune b = true := by
    intro b hb
    rcases List.mem_append.mp hb with hb | hb
    · rcases List.mem_append.mp hb with hb | hb
      · exact regexp.replaceAll_word (lit "_") (by decide) u.length u (le_refl _) b hb
      · rw [lit_underscore] at hb
        simp only [List.mem_singleton] at hb
        subst hb
        decide
    · rcases stamp_bytes env.stamp hs b hb with h | h
      · simp only [isDigit, Bool.and_eq_true, decide_eq_true_eq] at h
        simp only [regexp.isWordRune, Bool.or_eq_true, Bool.and_eq_true, decide_eq_true_eq]
        omega
      · subst h
        decide
  have hall : ∀ b ∈ fileName u env.stamp, regexp.isWordRune b = true ∨ b = 0x2E := by
    intro b hb
    rw [fileName_eq, lit_png] at hb
    rcases List.mem_append.mp hb with hb | hb
    · exact Or.inl (hstem b hb)
    · simp only [List.mem_cons, List.mem_singleton, List.not_mem_nil, or_false] at hb
      rcases hb with rfl | rfl | rfl | rfl
      · exact Or.inr rfl
      · exact Or.inl (by decide)
      · exact Or.inl (by decide)
      · exact Or.inl (by decide)
  refine ⟨fileName_eq u env.stamp, hstem, hall, ?_, ?_, ?_⟩
  · rw [fileName_eq, lit_png, List.count_append]
    have h0 : (sanitizeFileName u ++ lit "_" ++ env.stamp).count 0x2E = 0 := by
      rw [List.count_eq_zero]
      intro hmem
      have := hstem _ hmem
      simp [regexp.isWordRune] at this
    rw [h0]
    decide
  · intro b hb
    rcases hall b hb with h | h
    · simp only [regexp.isWordRune, Bool.or_eq_true, Bool.and_eq_true, decide_eq_true_eq] at h
      omega
    · omega
  · obtain ⟨p1, p2, p3, p4⟩ := fileName_plain u env.stamp hall
    have hj := filepath.join_plain outputDir (fileName u env.stamp) p1 p2 p3 p4
    simp only [captureScreenshot, h1, h2]
    cases env.write <;> simp only [hj]

set_option maxRecDepth 4000 in
/-- C8 at a URL with `../` segments: the file lands in `shots/`. -/
theorem fileName_safe_witness :
    isStamp (lit "20240131_235959") = true ∧
      (captureScreenshot
          { run1 := RunResult.ok, run2 := RunResult.ok, write := none,
            timeoutText := lit "5s", stamp := lit "20240131_235959" }
          (lit "http://a/../../etc") (lit "shots/")).filePath =
        some (lit "shots/http_a_etc_20240131_235959.png") :=
  ⟨by decide,
    (fileName_safe
      { run1 := RunResult.ok, run2 := RunResult.ok, write := none,
        timeoutText := lit "5s", stamp := lit "20240131_235959" }
      (lit "http://a/../../etc") (lit "shots/") (by decide) rfl rfl).2.2.2.2.2.trans
      (by decide)⟩

/-! ## The errors of `captureScreenshot` -/

theorem sprintf_text (p rest : GoString) (args : List GoString) (hp : 0x25 ∉ p) :
    fmt.Sprintf (p ++ rest) args = p ++ fmt.Sprintf rest args := by
  induction p with
  | nil => rfl
  | cons c p ih =>
    have hc : c ≠ 0x25 := fun e => hp (by simp [e])
    have hp2 : 0x25 ∉ p := fun e => hp (by simp [e])
    have ih2 := ih hp2
    simp only [List.cons_append]
    rw [← ih2]
    rcases hq : p ++ rest with _ | ⟨d, q⟩
    · simp [fmt.Sprintf]
    · simp [fmt.Sprintf, hc]

theorem sprintf_verb (d : Nat) (rest a : GoString) (args : List GoString)
    (hd : d = 0x73 ∨ d = 0x76) :
    fmt.Sprintf (0x25 :: d :: rest) (a :: args) = a ++ fmt.Sprintf rest args := by
  simp [fmt.Sprintf, hd]

set_option maxRecDepth 4000 in
/-- The message of the timeout error: the fixed text, the duration and the URL. -/
theorem timeout_message (dur url : GoString) :
    fmt.Sprintf (lit "timeout: page load exceeded %v for %s") [dur, url] =
      lit "timeout: page load exceeded " ++ dur ++ lit " for " ++ url := by
  have e1 : lit "timeout: page load exceeded %v for %s" =
      lit "timeout: page load exceeded " ++ (0x25 :: 0x76 :: (lit " for " ++ [0x25, 0x73])) := by
    decide
  rw [e1, sprintf_text _ _ _ (by decide), sprintf_verb _ _ _ _ (Or.inr rfl),
    sprintf_text _ _ _ (by decide), sprintf_verb _ _ _ _ (Or.inl rfl)]
  simp [fmt.Sprintf]

set_option maxRecDepth 4000 in
/-- **C7**, counterexample: the deadline expires during the first run (here while the
browser does not answer `Network.setExtraHTTPHeaders`, so that the run returns
`context deadline exceeded`); `captureScreenshot` returns the error of its first
`return`, which is not the timeout error and holds neither the duration nor the URL. -/
theorem deadline_in_headers_not_timeout :
    DeadlineHit
        { run1 := RunResult.failed (lit "context deadline exceeded") true,
          run2 := RunResult.ok, write := none, timeoutText := lit "5s",
          stamp := lit "20240131_235959" } ∧
      (captureScreenshot
          { run1 := RunResult.failed (lit "context deadline exceeded") true,
            run2 := RunResult.ok, write := none, timeoutText := lit "5s",
            stamp := lit "20240131_235959" }
          (lit "http://a.test") (lit "out")).err =
        some (ErrClass.headers,
          lit "failed to enable network and set headers: context deadline exceeded") := by
  constructor
  · exact Or.inl ⟨_, rfl⟩
  · decide

/-- **C7**, amended: for every capture attempt, if the per-task deadline expires during
step 4 or 5 (navigation, waiting for the document, taking the screenshot) and cuts the
second run short, whatever error that run reports, `captureScreenshot` returns the
timeout error and no error of another class; its message is
`timeout: page load exceeded <duration> for <URL>` and so contains both the timeout
duration and the target URL; no file is handed to `os.WriteFile`. -/
theorem timeout_classification (env : CaptureEnv) (targetURL outputDir : GoString)
    (h : DeadlineInSecondRun env) :
    captureScreenshot env targetURL outputDir =
        { err := some (ErrClass.timeout,
            lit "timeout: page load exceeded " ++ env.timeoutText ++ lit " for " ++ targetURL),
          filePath := none } ∧
      ∃ before between,
        lit "timeout: page load exceeded " ++ env.timeoutText ++ lit " for " ++ targetURL =
          before ++ env.timeoutText ++ between ++ targetURL := by
  obtain ⟨h1, cause, h2⟩ := h
  refine ⟨?_, lit "timeout: page load exceeded ", lit " for ", rfl⟩
  simp only [captureScreenshot, h1, h2, if_true]
  rw [timeout_message]

set_option maxRecDepth 4000 in
/-- C7 (amended) at a call whose second run is cut by a deadline of `5s` and reports an
error other than `context deadline exceeded`. -/
theorem timeout_classification_witness :
    DeadlineInSecondRun
        { run1 := RunResult.ok,
          run2 := RunResult.failed (lit "page load error net::ERR_ABORTED") true,
          write := none, timeoutText := lit "5s", stamp := lit "20240131_235959" } ∧
      captureScreenshot
          { run1 := RunResult.ok,
            run2 := RunResult.failed (lit "page load error net::ERR_ABORTED") true,
            write := none, timeoutText := lit "5s", stamp := lit "20240131_235959" }
          (lit "http://a.test") (lit "out") =
        { err := some (ErrClass.timeout, lit "timeout: page load exceeded 5s for http://a.test"),
          filePath := none } :=
  ⟨⟨rfl, _, rfl⟩,
    (timeout_classification
      { run1 := RunResult.ok,
        run2 := RunResult.failed (lit "page load error net::ERR_ABORTED") true,
        write := none, timeoutText := lit "5s", stamp := lit "20240131_235959" }
      (lit "http://a.test") (lit "out") ⟨rfl, _, rfl⟩).1.trans (by decide)⟩

/-! ## The worker pool of `processURLs` -/

namespace processURLs

theorem get_split {α : Type} (l : List α) (j : Nat) (w : α) (h : l.get? j = some w) :
    ∃ pre post, l = pre ++ w :: post ∧ ∀ w2, l.set j w2 = pre ++ w2 :: post := by
  induction l generalizing j with
  | nil => simp at h
  | cons a l ih =>
    cases j with
    | zero =>
      simp only [List.get?_cons_zero, Option.some.injEq] at h
      subst h
      exact ⟨[], l, rfl, fun _ => rfl⟩
    | succ j =>
      simp only [List.get?_cons_succ] at h
      obtain ⟨pre, post, e, hset⟩ := ih j h
      exact ⟨a :: pre, post, by simp [e], fun w2 => by simp [hset w2]⟩

theorem claimedList_append (a b : List Worker) :
    claimedList (a ++ b) = claimedList a ++ claimedList b := by
  simp [claimedList]

theorem capturingList_append (a b : List Worker) :
    capturingList (a ++ b) = capturingList a ++ capturingList b := by
  simp [capturingList]

theorem activeCount_append (a b : List Worker) :
    activeCount (a ++ b) = activeCount a + activeCount b := by
  simp [activeCount]

theorem claimedList_cons (w : Worker) (b : List Worker) :
    claimedList (w :: b) =
      (match w with | Worker.claimed u => [u] | _ => []) ++ claimedList b := by
  simp [claimedList]

theorem capturingList_cons (w : Worker) (b : List Worker) :
    capturingList (w :: b) =
      (match w with | Worker.capturing u => [u] | _ => []) ++ capturingList b := by
  simp [capturingList]

theorem activeCount_cons (w : Worker) (b : List Worker) :
    activeCount (w :: b) = (if w ≠ Worker.exited then 1 else 0) + activeCount b := by
  simp only [activeCount, List.countP_cons]
  by_cases h : w = Worker.exited <;> simp [h, Nat.add_comm]

theorem inv_start (urls : List GoString) (threads : Int) (s0 : Pool)
    (h : start urls threads = some s0) : Inv urls s0 := by
  unfold start at h
  split_ifs at h with hneg
  simp only [Option.some.injEq] at h
  subst h
  constructor <;> simp [claimedList, capturingList, activeCount]

theorem inv_mainStep (urls : List GoString) (s s1 : Pool) (hinv : Inv urls s)
    (h : mainStep s = some s1) : Inv urls s1 := by
  obtain ⟨h1, h2, h3, h4, h5, h6, h7, h8, h9, h10, h11⟩ := hinv
  unfold mainStep at h
  rcases hm : s.main with i | _ | _ | _
  · -- spawning
    rw [hm] at h
    simp only at h
    have hlen := h1 i hm
    split_ifs at h with hi
    · simp only [Option.some.injEq] at h
      subst h
      constructor
      · intro k hk
        simp only [MainPC.spawning.injEq] at hk
        simp only [List.length_append, List.length_singleton]
        omega
      · intro hk
        exact absurd rfl (hk (i + 1))
      · exact h3
      · simpa [claimedList_append, claimedList] using h4
      · simpa [capturingList_append, capturingList] using h5
      · simp [activeCount_append, activeCount, h6]
      · intro _
        exact Or.inr ⟨i + 1, rfl⟩
      · intro hc
        have := (h8 hc).1
        simp [hm] at this
      · intro hc w hw
        simp only [List.mem_append, List.mem_singleton] at hw
        rcases hw with hw | rfl
        · exact h9 hc w hw
        · simp
      · rintro ⟨w, hw, hw2⟩
        simp only [List.mem_append, List.mem_singleton] at hw
        rcases hw with hw | rfl
        · exact h10 ⟨w, hw, hw2⟩
        · simp at hw2
      · intro hk
        simp at hk
    · simp only [Option.some.injEq] at h
      subst h
      constructor
      · intro k hk
        simp at hk
      · intro _
        simp only
        omega
      · exact h3
      · exact h4
      · exact h5
      · exact h6
      · intro _
        exact Or.inl rfl
      · intro hc
        have := (h8 hc).1
        simp [hm] at this
      · exact h9
      · exact h10
      · intro hk
        simp at hk
  · -- sending
    rw [hm] at h
    simp only at h
    have hlen := h2 (by simp [hm])
    rcases hp : s.pending with _ | ⟨u, rest⟩
    · rw [hp] at h
      simp only [Option.some.injEq] at h
      subst h
      constructor
      · intro k hk
        simp at hk
      · intro _
        exact hlen
      · exact h3
      · simpa [hp] using h4
      · exact h5
      · exact h6
      · intro hc
        simp at hc
      · intro _
        exact ⟨Or.inl rfl, rfl⟩
      · intro hc
        simp at hc
      · exact h10
      · intro hk
        simp at hk
    · rw [hp] at h
      simp only at h
      split_ifs at h with hb
      simp only [Option.some.injEq] at h
      subst h
      have hopen : s.closed = false := by
        by_contra hc
        simp only [Bool.not_eq_false] at hc
        have := (h8 hc).2
        simp [hp] at this
      constructor
      · intro k hk
        simp [hm] at hk
      · intro _
        exact hlen
      · simp only [List.length_append, List.length_singleton]
        omega
      · rw [hp] at h4
        rw [← h4]
        simp only [← Multiset.coe_add, ← Multiset.cons_coe, ← Multiset.singleton_add,
          Multiset.coe_nil, add_zero]
        abel
      · exact h5
      · exact h6
      · intro _
        exact Or.inl rfl
      · intro hc
        simp [hopen] at hc
      · exact h9
      · rintro ⟨w, hw, hw2⟩
        have := h9 hopen w hw
        rcases hw2 with rfl | rfl <;> simp at this
      · intro hk
        simp [hm] at hk
  · -- waiting
    rw [hm] at h
    simp only at h
    split_ifs at h with hw
    simp only [Option.some.injEq] at h
    subst h
    have hcl : s.closed = true := by
      by_contra hc
      simp only [Bool.not_eq_true] at hc
      rcases h7 hc with h | ⟨i, h⟩ <;> simp [hm] at h
    constructor
    · intro k hk
      simp at hk
    · intro _
      exact h2 (by simp [hm])
    · exact h3
    · exact h4
    · exact h5
    · exact h6
    · intro hc
      simp [hcl] at hc
    · intro _
      exact ⟨Or.inr rfl, (h8 hcl).2⟩
    · exact h9
    · exact h10
    · intro _
      exact hw
  · rw [hm] at h
    simp at h

theorem mem_split_iff (pre post : List Worker) (w x : Worker) :
    x ∈ pre ++ w :: post ↔ x = w ∨ x ∈ pre ∨ x ∈ post := by
  simp only [List.mem_append, List.mem_cons]
  tauto

theorem inv_workerStep (urls : List GoString) (s s1 : Pool) (j : Nat) (hinv : Inv urls s)
    (h : workerStep s j = some s1) : Inv urls s1 := by
  obtain ⟨h1, h2, h3, h4, h5, h6, h7, h8, h9, h10, h11⟩ := hinv
  rcases s with ⟨threads, main, pending, buf, closed, workers, wg, started, finished⟩
  simp only at h1 h2 h3 h4 h5 h6 h7 h8 h9 h10 h11
  unfold workerStep at h
  simp only at h
  rcases hw : workers.get? j with _ | w
  · rw [hw] at h
    simp at h
  rw [hw] at h
  obtain ⟨pre, post, e, hset⟩ := get_split workers j w hw
  subst e
  simp only [hset] at h
  have hlen : ∀ w2, (pre ++ w2 :: post).length = (pre ++ w :: post).length := by
    intro w2; simp
  rcases w with _ | u | u | _ | _
  · -- recv
    simp only at h
    rcases buf with _ | ⟨u, b⟩
    · simp only at h
      split_ifs at h with hc
      simp only [Option.some.injEq] at h
      subst h
      constructor <;> simp only
      · intro k hk
        rw [hlen]
        exact h1 k hk
      · intro hk
        rw [hlen]
        exact h2 hk
      · exact h3
      · simpa [claimedList_append, claimedList_cons] using h4
      · simpa [capturingList_append, capturingList_cons] using h5
      · simpa [activeCount_append, activeCount_cons] using h6
      · exact h7
      · exact h8
      · intro hc2
        simp [hc] at hc2
      · intro _
        trivial
      · exact h11
    · simp only [Option.some.injEq] at h
      subst h
      constructor <;> simp only
      · intro k hk
        rw [hlen]
        exact h1 k hk
      · intro hk
        rw [hlen]
        exact h2 hk
      · simp only [List.length_cons] at h3 ⊢
        omega
      · rw [← h4]
        simp only [claimedList_append, claimedList_cons, ← Multiset.coe_add,
          ← Multiset.cons_coe, ← Multiset.singleton_add, Multiset.coe_nil, add_zero,
          List.nil_append, List.singleton_append]
        abel
      · simpa [capturingList_append, capturingList_cons] using h5
      · simpa [activeCount_append, activeCount_cons] using h6
      · exact h7
      · exact h8
      · intro hc x hx
        rw [mem_split_iff] at hx
        rcases hx with rfl | hx
        · simp
        · exact h9 hc x (by rw [mem_split_iff]; exact Or.inr hx)
      · rintro ⟨x, hx, hx2⟩
        rw [mem_split_iff] at hx
        rcases hx with rfl | hx
        · simp at hx2
        · have := h10 ⟨x, by rw [mem_split_iff]; exact Or.inr hx, hx2⟩
          simp at this
      · exact h11
  · -- claimed
    simp only [Option.some.injEq] at h
    subst h
    constructor <;> simp only
    · intro k hk
      rw [hlen]
      exact h1 k hk
    · intro hk
      rw [hlen]
      exact h2 hk
    · exact h3
    · rw [← h4]
      simp only [claimedList_append, claimedList_cons, ← Multiset.coe_add,
        ← Multiset.cons_coe, ← Multiset.singleton_add, Multiset.coe_nil, add_zero,
        List.nil_append, List.singleton_append]
      abel
    · simp only [capturingList_append, capturingList_cons, ← Multiset.coe_add,
        ← Multiset.cons_coe, ← Multiset.singleton_add, Multiset.coe_nil, add_zero,
        List.nil_append, List.singleton_append] at h5 ⊢
      rw [← h5]
      abel
    · simpa [activeCount_append, activeCount_cons] using h6
    · exact h7
    · exact h8
    · intro hc x hx
      rw [mem_split_iff] at hx
      rcases hx with rfl | hx
      · simp
      · exact h9 hc x (by rw [mem_split_iff]; exact Or.inr hx)
    · rintro ⟨x, hx, hx2⟩
      rw [mem_split_iff] at hx
      rcases hx with rfl | hx
      · simp at hx2
      · exact h10 ⟨x, by rw [mem_split_iff]; exact Or.inr hx, hx2⟩
    · exact h11
  · -- capturing
    simp only [Option.some.injEq] at h
    subst h
    constructor <;> simp only
    · intro k hk
      rw [hlen]
      exact h1 k hk
    · intro hk
      rw [hlen]
      exact h2 hk
    · exact h3
    · simpa [claimedList_append, claimedList_cons] using h4
    · simp only [capturingList_append, capturingList_cons, ← Multiset.coe_add,
        ← Multiset.cons_coe, ← Multiset.singleton_add, Multiset.coe_nil, add_zero,
        List.nil_append, List.singleton_append] at h5 ⊢
      rw [← h5]
      abel
    · simpa [activeCount_append, activeCount_cons] using h6
    · exact h7
    · exact h8
    · intro hc x hx
      rw [mem_split_iff] at hx
      rcases hx with rfl | hx
      · simp
      · exact h9 hc x (by rw [mem_split_iff]; exact Or.inr hx)
    · rintro ⟨x, hx, hx2⟩
      rw [mem_split_iff] at hx
      rcases hx with rfl | hx
      · simp at hx2
      · exact h10 ⟨x, by rw [mem_split_iff]; exact Or.inr hx, hx2⟩
    · exact h11
  · -- leaving
    simp only [Option.some.injEq] at h
    subst h
    have hcl : closed = true := by
      by_contra hc
      simp only [Bool.not_eq_true] at hc
      have := h9 hc Worker.leaving (by simp)
      simp at this
    have hact : wg = activeCount pre + 1 + activeCount post := by
      rw [h6]
      simp [activeCount_append, activeCount_cons]
      omega
    constructor <;> simp only
    · intro k hk
      rw [hlen]
      exact h1 k hk
    · intro hk
      rw [hlen]
      exact h2 hk
    · exact h3
    · simpa [claimedList_append, claimedList_cons] using h4
    · simpa [capturingList_append, capturingList_cons] using h5
    · rw [hact]
      simp [activeCount_append, activeCount_cons]
    · exact h7
    · exact h8
    · intro hc
      simp [hcl] at hc
    · intro _
      exact h10 ⟨Worker.leaving, by simp, Or.inl rfl⟩
    · intro hk
      have := h11 hk
      omega
  · simp at h

theorem inv_handoffStep (urls : List GoString) (s s1 : Pool) (j : Nat) (hinv : Inv urls s)
    (h : handoffStep s j = some s1) : Inv urls s1 := by
  obtain ⟨h1, h2, h3, h4, h5, h6, h7, h8, h9, h10, h11⟩ := hinv
  rcases s with ⟨threads, main, pending, buf, closed, workers, wg, started, finished⟩
  simp only at h1 h2 h3 h4 h5 h6 h7 h8 h9 h10 h11
  unfold handoffStep at h
  simp only at h
  split at h
  · rename_i x1 x2 x3 x4 u rest hw
    obtain ⟨pre, post, e, hset⟩ := get_split workers j _ hw
    subst e
    simp only [hset, Option.some.injEq] at h
    subst h
    have hlen : ∀ w2, (pre ++ w2 :: post).length = (pre ++ Worker.recv :: post).length := by
      intro w2; simp
    have hopen : closed = false := by
      by_contra hc
      simp only [Bool.not_eq_false] at hc
      have := (h8 hc).2
      simp at this
    constructor <;> simp only
    · intro k hk
      simp at hk
    · intro hk
      rw [hlen]
      exact h2 hk
    · exact h3
    · rw [← h4]
      simp only [claimedList_append, claimedList_cons, ← Multiset.coe_add,
        ← Multiset.cons_coe, ← Multiset.singleton_add, Multiset.coe_nil, add_zero,
        List.nil_append, List.singleton_append]
      abel
    · simpa [capturingList_append, capturingList_cons] using h5
    · simpa [activeCount_append, activeCount_cons] using h6
    · intro _
      exact Or.inl trivial
    · intro hc
      simp [hopen] at hc
    · intro hc x hx
      rw [mem_split_iff] at hx
      rcases hx with rfl | hx
      · simp
      · exact h9 hc x (by rw [mem_split_iff]; exact Or.inr hx)
    · intro _
      trivial
    · exact h11
  · simp at h

theorem inv_step (urls : List GoString) (s s1 : Pool) (a : Action) (hinv : Inv urls s)
    (h : step s a = some s1) : Inv urls s1 := by
  cases a with
  | main => exact inv_mainStep urls s s1 hinv h
  | worker j => exact inv_workerStep urls s s1 j hinv h
  | handoff j => exact inv_handoffStep urls s s1 j hinv h

theorem inv_run (urls : List GoString) (sched : List Action) :
    ∀ s s1 : Pool, Inv urls s → run s sched = some s1 → Inv urls s1 := by
  induction sched with
  | nil =>
    intro s s1 hinv h
    simp only [run, Option.some.injEq] at h
    exact h ▸ hinv
  | cons a as ih =>
    intro s s1 hinv h
    simp only [run] at h
    rcases hs : step s a with _ | s2
    · simp [hs] at h
    · rw [hs] at h
      exact ih s2 s1 (inv_step urls s s2 a hinv hs) h

theorem inv_reachable (urls : List GoString) (threads : Int) (s : Pool)
    (h : Reachable urls threads s) : Inv urls s := by
  obtain ⟨s0, sched, h0, hr⟩ := h
  exact inv_run urls sched s0 s (inv_start urls threads s0 h0) hr

theorem threads_step (s s1 : Pool) (a : Action) (h : step s a = some s1) :
    s1.threads = s.threads := by
  cases a with
  | main =>
    simp only [step, mainStep] at h
    split at h
    · split_ifs at h <;> simp only [Option.some.injEq] at h <;> subst h <;> rfl
    · split at h
      · simp only [Option.some.injEq] at h; subst h; rfl
      · split_ifs at h; simp only [Option.some.injEq] at h; subst h; rfl
    · split_ifs at h; simp only [Option.some.injEq] at h; subst h; rfl
    · simp at h
  | worker j =>
    simp only [step, workerStep] at h
    split at h
    · simp at h
    · split at h
      · simp only [Option.some.injEq] at h; subst h; rfl
      · split_ifs at h; simp only [Option.some.injEq] at h; subst h; rfl
    · simp only [Option.some.injEq] at h; subst h; rfl
    · simp only [Option.some.injEq] at h; subst h; rfl
    · simp only [Option.some.injEq] at h; subst h; rfl
    · simp at h
  | handoff j =>
    simp only [step, handoffStep] at h
    split at h
    · simp only [Option.some.injEq] at h; subst h; rfl
    · simp at h

theorem threads_run (sched : List Action) :
    ∀ s s1 : Pool, run s sched = some s1 → s1.threads = s.threads := by
  induction sched with
  | nil =>
    intro s s1 h
    simp only [run, Option.some.injEq] at h
    rw [h]
  | cons a as ih =>
    intro s s1 h
    simp only [run] at h
    rcases hs : step s a with _ | s2
    · simp [hs] at h
    · rw [hs] at h
      rw [ih s2 s1 h, threads_step s s2 a hs]

theorem threads_reachable (urls : List GoString) (threads : Int) (s : Pool)
    (h : Reachable urls threads s) : (s.threads : Int) = threads := by
  obtain ⟨s0, sched, h0, hr⟩ := h
  rw [threads_run sched s0 s hr]
  unfold start at h0
  split_ifs at h0 with hneg
  simp only [Option.some.injEq] at h0
  subst h0
  simp only
  omega

theorem inFlight_le_length (ws : List Worker) :
    ws.countP (fun w => match w with | Worker.capturing _ => true | _ => false) ≤ ws.length :=
  List.countP_le_length _

theorem workers_le_threads (urls : List GoString) (s : Pool) (hinv : Inv urls s) :
    s.workers.length ≤ s.threads := by
  by_cases h : ∃ i, s.main = MainPC.spawning i
  · obtain ⟨i, hi⟩ := h
    have := hinv.spawn_len i hi
    omega
  · have := hinv.full_len (fun i hi => h ⟨i, hi⟩)
    omega

/-- **C5**: for every list of URLs and every worker count `N ≥ 1`, a run of `processURLs`
starts, and in every state it can reach the number of `captureScreenshot` calls that have
started and not yet returned is at most `N`. -/
theorem inFlight_le_threads (urls : List GoString) (threads : Int) (hN : 1 ≤ threads) :
    (∃ s0, start urls threads = some s0) ∧
      ∀ s, Reachable urls threads s → (inFlight s : Int) ≤ threads := by
  refine ⟨?_, fun s hs => ?_⟩
  · unfold start
    rw [if_neg (by omega)]
    exact ⟨_, rfl⟩
  · have hinv := inv_reachable urls threads s hs
    have h1 := workers_le_threads urls s hinv
    have h2 := inFlight_le_length s.workers
    have h3 := threads_reachable urls threads s hs
    unfold inFlight
    omega

/-- C5 at three URLs and two workers. -/
theorem inFlight_le_threads_witness :
    (1 : Int) ≤ 2 ∧
      ((∃ s0, start [lit "http://a", lit "http://b", lit "http://c"] 2 = some s0) ∧
        ∀ s, Reachable [lit "http://a", lit "http://b", lit "http://c"] 2 s →
          (inFlight s : Int) ≤ 2) :=
  ⟨by norm_num, inFlight_le_threads [lit "http://a", lit "http://b", lit "http://c"] 2
    (by norm_num)⟩

theorem sum_weight_split (pre post : List Worker) (w : Worker) :
    ((pre ++ w :: post).map workerWeight).sum =
      (pre.map workerWeight).sum + workerWeight w + (post.map workerWeight).sum := by
  simp [Nat.add_assoc]

/-- Every step makes the variant smaller. -/
theorem variant_step (s s1 : Pool) (a : Action) (h : step s a = some s1) :
    variant s1 < variant s := by
  rcases s with ⟨threads, main, pending, buf, closed, workers, wg, started, finished⟩
  cases a with
  | main =>
    simp only [step, mainStep] at h
    rcases main with i | _ | _ | _
    · simp only at h
      split_ifs at h with hi
      · simp only [Option.some.injEq] at h
        subst h
        simp only [variant, mainWeight, List.map_append, List.sum_append, List.map_cons,
          List.map_nil, List.sum_cons, List.sum_nil, workerWeight]
        omega
      · simp only [Option.some.injEq] at h
        subst h
        simp only [variant, mainWeight]
        omega
    · simp only at h
      rcases pending with _ | ⟨u, rest⟩
      · simp only [Option.some.injEq] at h
        subst h
        simp only [variant, mainWeight]
        omega
      · simp only at h
        split_ifs at h
        simp only [Option.some.injEq] at h
        subst h
        simp only [variant, mainWeight, List.length_append, List.length_cons, List.length_nil]
        omega
    · simp only at h
      split_ifs at h
      simp only [Option.some.injEq] at h
      subst h
      simp only [variant, mainWeight]
      omega
    · simp at h
  | worker j =>
    simp only [step, workerStep] at h
    rcases hw : workers.get? j with _ | w
    · rw [hw] at h
      simp at h
    rw [hw] at h
    obtain ⟨pre, post, e, hset⟩ := get_split workers j w hw
    subst e
    simp only [hset] at h
    rcases w with _ | u | u | _ | _
    · simp only at h
      rcases buf with _ | ⟨u, b⟩
      · simp only at h
        split_ifs at h
        simp only [Option.some.injEq] at h
        subst h
        simp only [variant, sum_weight_split, workerWeight]
        omega
      · simp only [Option.some.injEq] at h
        subst h
        simp only [variant, sum_weight_split, workerWeight, List.length_cons]
        omega
    · simp only [Option.some.injEq] at h
      subst h
      simp only [variant, sum_weight_split, workerWeight]
      omega
    · simp only [Option.some.injEq] at h
      subst h
      simp only [variant, sum_weight_split, workerWeight]
      omega
    · simp only [Option.some.injEq] at h
      subst h
      simp only [variant, sum_weight_split, workerWeight]
      omega
    · simp at h
  | handoff j =>
    simp only [step, handoffStep] at h
    split at h
    · rename_i x1 x2 x3 x4 u rest hw
      obtain ⟨pre, post, e, hset⟩ := get_split workers j _ hw
      subst e
      simp only [hset, Option.some.injEq] at h
      subst h
      simp only [variant, sum_weight_split, workerWeight, List.length_cons]
      omega
    · simp at h

/-- A run is no longer than the variant of the state it starts from. -/
theorem run_length (sched : List Action) :
    ∀ s s1 : Pool, run s sched = some s1 → sched.length + variant s1 ≤ variant s := by
  induction sched with
  | nil =>
    intro s s1 h
    simp only [run, Option.some.injEq] at h
    subst h
    simp
  | cons a as ih =>
    intro s s1 h
    simp only [run] at h
    rcases hs : step s a with _ | s2
    · simp [hs] at h
    · rw [hs] at h
      have h1 := ih s2 s1 h
      have h2 := variant_step s s2 a hs
      simp only [List.length_cons]
      omega

theorem workerStep_enabled (s : Pool) (j : Nat) (w : Worker) (hw : s.workers.get? j = some w)
    (hne : w ≠ Worker.exited) (hrecv : w = Worker.recv → s.buf ≠ [] ∨ s.closed = true) :
    ∃ s1, workerStep s j = some s1 := by
  unfold workerStep
  rw [hw]
  rcases w with _ | u | u | _ | _
  · rcases hb : s.buf with _ | ⟨u, b⟩
    · rcases hrecv rfl with h | h
      · exact absurd hb h
      · simp [h]
    · exact ⟨_, rfl⟩
  · exact ⟨_, rfl⟩
  · exact ⟨_, rfl⟩
  · exact ⟨_, rfl⟩
  · exact absurd rfl hne

/-- With at least one worker configured, a pool that has not returned can take a step:
no deadlock. -/
theorem progress (urls : List GoString) (s : Pool) (hinv : Inv urls s) (hN : 1 ≤ s.threads)
    (hret : s.main ≠ MainPC.returned) : ∃ a s1, step s a = some s1 := by
  rcases hm : s.main with i | _ | _ | _
  · refine ⟨Action.main, ?_⟩
    simp only [step, mainStep, hm]
    split_ifs
    · exact ⟨_, rfl⟩
    · exact ⟨_, rfl⟩
  · rcases hp : s.pending with _ | ⟨u, rest⟩
    · exact ⟨Action.main, by simp [step, mainStep, hm, hp]⟩
    · by_cases hb : s.buf.length < s.threads
      · exact ⟨Action.main, by simp [step, mainStep, hm, hp, hb]⟩
      · have hlen := hinv.full_len (by simp [hm])
        have hopen : s.closed = false := by
          by_contra hc
          simp only [Bool.not_eq_false] at hc
          have := (hinv.closed_main hc).2
          simp [hp] at this
        rcases hws : s.workers with _ | ⟨w, ws⟩
        · rw [hws] at hlen
          simp only [List.length_nil] at hlen
          omega
        · have hw : s.workers.get? 0 = some w := by simp [hws]
          have hnot := hinv.open_workers hopen w (by simp [hws])
          obtain ⟨s1, h1⟩ := workerStep_enabled s 0 w hw hnot.2 (fun _ => Or.inl (by
            intro hbuf
            rw [hbuf] at hb
            simp only [List.length_nil] at hb
            omega))
          exact ⟨Action.worker 0, s1, h1⟩
  · by_cases hwg : s.wg = 0
    · exact ⟨Action.main, by simp [step, mainStep, hm, hwg]⟩
    · have hcl : s.closed = true := by
        by_contra hc
        simp only [Bool.not_eq_true] at hc
        rcases hinv.open_main hc with h | ⟨i, h⟩ <;> simp [hm] at h
      have hpos : 0 < activeCount s.workers := by
        have := hinv.wg_eq
        omega
      obtain ⟨w, hmem, hw⟩ := List.countP_pos_iff.mp hpos
      simp only [decide_eq_true_eq] at hw
      obtain ⟨j, hj⟩ := List.get?_of_mem hmem
      obtain ⟨s1, h1⟩ := workerStep_enabled s j w hj hw (fun _ => Or.inr hcl)
      exact ⟨Action.worker j, s1, h1⟩
  · exact absurd hm hret

theorem activeCount_zero (ws : List Worker) (h : activeCount ws = 0) :
    ∀ w ∈ ws, w = Worker.exited := by
  intro w hw
  unfold activeCount at h
  rw [List.countP_eq_zero] at h
  have := h w hw
  simpa using this

theorem claimedList_exited (ws : List Worker) (h : ∀ w ∈ ws, w = Worker.exited) :
    claimedList ws = [] ∧ capturingList ws = [] := by
  induction ws with
  | nil => exact ⟨rfl, rfl⟩
  | cons w ws ih =>
    have hw := h w (by simp)
    subst hw
    have := ih (fun x hx => h x (by simp [hx]))
    simp [claimedList_cons, capturingList_cons, this.1, this.2]

/-- When the pool has returned, the calls started, and the calls returned, are the
submitted URLs. -/
theorem returned_all (urls : List GoString) (s : Pool) (hinv : Inv urls s)
    (hret : s.main = MainPC.returned) :
    (s.started : Multiset GoString) = urls ∧ (s.finished : Multiset GoString) = urls := by
  have hwg := hinv.ret_wg hret
  have hex := activeCount_zero s.workers (by rw [← hinv.wg_eq]; exact hwg)
  obtain ⟨hc1, hc2⟩ := claimedList_exited s.workers hex
  have hcl : s.closed = true := by
    by_contra hc
    simp only [Bool.not_eq_true] at hc
    rcases hinv.open_main hc with h | ⟨i, h⟩ <;> simp [hret] at h
  have hp := (hinv.closed_main hcl).2
  have hb : s.buf = [] := by
    rcases hws : s.workers with _ | ⟨w, ws⟩
    · have hlen := hinv.full_len (by simp [hret])
      have hbl := hinv.buf_len
      rw [hws] at hlen
      simp only [List.length_nil] at hlen
      exact List.length_eq_zero.mp (by omega)
    · exact hinv.gone_buf ⟨w, by simp [hws], Or.inr (hex w (by simp [hws]))⟩
  have h4 := hinv.conserve
  have h5 := hinv.calls
  rw [hp, hb, hc1] at h4
  rw [hc2] at h5
  simp only [Multiset.coe_nil, zero_add, add_zero] at h4 h5
  exact ⟨h4, by rw [h5]; exact h4⟩

theorem started_le (urls : List GoString) (s : Pool) (hinv : Inv urls s) :
    (s.started : Multiset GoString) ≤ urls := by
  rw [← hinv.conserve]
  exact Multiset.le_add_left _ _

/-- With at least one worker configured, every state of the pool has a run that ends
with `processURLs` returning. -/
theorem can_return (urls : List GoString) (n : Nat) :
    ∀ s : Pool, Inv urls s → 1 ≤ s.threads → variant s ≤ n →
      ∃ sched s1, run s sched = some s1 ∧ s1.main = MainPC.returned := by
  induction n with
  | zero =>
    intro s hinv hN hv
    by_cases hret : s.main = MainPC.returned
    · exact ⟨[], s, rfl, hret⟩
    · obtain ⟨a, s2, h2⟩ := progress urls s hinv hN hret
      have := variant_step s s2 a h2
      omega
  | succ n ih =>
    intro s hinv hN hv
    by_cases hret : s.main = MainPC.returned
    · exact ⟨[], s, rfl, hret⟩
    · obtain ⟨a, s2, h2⟩ := progress urls s hinv hN hret
      have hlt := variant_step s s2 a h2
      have hth := threads_step s s2 a h2
      obtain ⟨sched, s1, hr, hm⟩ :=
        ih s2 (inv_step urls s s2 a hinv h2) (by omega) (by omega)
      exact ⟨a :: sched, s1, by simp [run, h2, hr], hm⟩

/-- **C4**: for every list of URLs and every worker count `N ≥ 1`, under every schedule
of the goroutines: a run starts; at no point has a URL been passed to `captureScreenshot`
more often than it was submitted; a pool that has not returned can always take a step
and some run from it returns; every run takes at most `3N + 3 + 4M` steps; and when
`processURLs` has returned, the multiset of URLs passed to `captureScreenshot` (and of
the calls that returned) is the multiset of URLs submitted. -/
theorem processURLs_each_once (urls : List GoString) (threads : Int) (hN : 1 ≤ threads) :
    (∃ s0, start urls threads = some s0) ∧
      (∀ s, Reachable urls threads s →
        (s.started : Multiset GoString) ≤ urls ∧
        (s.main = MainPC.returned →
          (s.started : Multiset GoString) = urls ∧ (s.finished : Multiset GoString) = urls) ∧
        (s.main ≠ MainPC.returned → ∃ a s1, step s a = some s1) ∧
        (∃ sched s1, run s sched = some s1 ∧ s1.main = MainPC.returned)) ∧
      (∀ s0 sched s, start urls threads = some s0 → run s0 sched = some s →
        sched.length ≤ 3 * threads.toNat + 3 + 4 * urls.length) := by
  refine ⟨?_, fun s hs => ?_, fun s0 sched s h0 hr => ?_⟩
  · unfold start
    rw [if_neg (by omega)]
    exact ⟨_, rfl⟩
  · have hinv := inv_reachable urls threads s hs
    have hth := threads_reachable urls threads s hs
    have hN1 : 1 ≤ s.threads := by omega
    exact ⟨started_le urls s hinv, returned_all urls s hinv,
      progress urls s hinv hN1, can_return urls (variant s) s hinv hN1 (le_refl _)⟩
  · have h1 := run_length sched s0 s hr
    unfold start at h0
    split_ifs at h0 with hneg
    simp only [Option.some.injEq] at h0
    subst h0
    simp only [variant, mainWeight, List.length_nil, List.map_nil, List.sum_nil] at h1
    omega

/-- C4 at three URLs, one of them submitted twice, and two workers. -/
theorem processURLs_each_once_witness :
    (1 : Int) ≤ 2 ∧
      ((∃ s0, start [lit "http://a", lit "http://b", lit "http://a"] 2 = some s0) ∧
        (∀ s, Reachable [lit "http://a", lit "http://b", lit "http://a"] 2 s →
          (s.started : Multiset GoString) ≤ [lit "http://a", lit "http://b", lit "http://a"] ∧
          (s.main = MainPC.returned →
            (s.started : Multiset GoString) =
                [lit "http://a", lit "http://b", lit "http://a"] ∧
              (s.finished : Multiset GoString) =
                [lit "http://a", lit "http://b", lit "http://a"]) ∧
          (s.main ≠ MainPC.returned → ∃ a s1, step s a = some s1) ∧
          (∃ sched s1, run s sched = some s1 ∧ s1.main = MainPC.returned)) ∧
        (∀ s0 sched s, start [lit "http://a", lit "http://b", lit "http://a"] 2 = some s0 →
          run s0 sched = some s →
          sched.length ≤
            3 * (2 : Int).toNat + 3 +
              4 * [lit "http://a", lit "http://b", lit "http://a"].length)) :=
  ⟨by norm_num,
    processURLs_each_once [lit "http://a", lit "http://b", lit "http://a"] 2 (by norm_num)⟩

/-- The states a pool without workers and with something to send can be in. -/
theorem zero_threads_states (urls : List GoString) (hne : urls ≠ []) (sched : List Action) :
    ∀ s s1 : Pool,
      (s.threads = 0 ∧ s.pending = urls ∧ s.workers = [] ∧ s.buf = [] ∧ s.started = [] ∧
        (s.main = MainPC.spawning 0 ∨ s.main = MainPC.sending)) →
      run s sched = some s1 →
      (s1.threads = 0 ∧ s1.pending = urls ∧ s1.workers = [] ∧ s1.buf = [] ∧ s1.started = [] ∧
        (s1.main = MainPC.spawning 0 ∨ s1.main = MainPC.sending)) := by
  induction sched with
  | nil =>
    intro s s1 hs h
    simp only [run, Option.some.injEq] at h
    exact h ▸ hs
  | cons a as ih =>
    intro s s1 hs h
    simp only [run] at h
    rcases hst : step s a with _ | s2
    · simp [hst] at h
    · rw [hst] at h
      refine ih s2 s1 ?_ h
      obtain ⟨h1, h2, h3, h4, h5, h6⟩ := hs
      obtain ⟨u, rest, hu⟩ : ∃ u rest, urls = u :: rest := by
        rcases urls with _ | ⟨u, rest⟩
        · exact absurd rfl hne
        · exact ⟨u, rest, rfl⟩
      cases a with
      | main =>
        simp only [step, mainStep] at hst
        rcases h6 with h6 | h6
        · simp only [h6, h1, Nat.lt_irrefl, if_false, Option.some.injEq] at hst
          subst hst
          exact ⟨rfl, h2, h3, h4, h5, Or.inr rfl⟩
        · simp [h6, h2, hu, h1] at hst
      | worker j =>
        simp [step, workerStep, h3] at hst
      | handoff j =>
        simp only [step, handoffStep, h3] at hst
        split at hst <;> simp_all

/-- **C6**, the code at the failing input `threads = 0`, `urls = ["http://a"]`: the run
reaches a state in which no goroutine can take a step, with the calling goroutine still
at its first send and nothing captured; no reachable state has `processURLs` returned or
any URL passed to `captureScreenshot`.  With `threads = -1` the channel cannot even be
made. -/
theorem zero_threads_deadlock :
    (∃ s, Reachable [lit "http://a"] 0 s ∧ Stuck s ∧ s.main = MainPC.sending ∧
        s.pending = [lit "http://a"] ∧ s.started = []) ∧
      (∀ s, Reachable [lit "http://a"] 0 s → s.main ≠ MainPC.returned ∧ s.started = []) ∧
      start [lit "http://a"] (-1) = none := by
  refine ⟨?_, ?_, by decide⟩
  · refine ⟨{ threads := 0, main := MainPC.sending, pending := [lit "http://a"], buf := [],
              closed := false, workers := [], wg := 0, started := [], finished := [] },
      ⟨_, [Action.main], rfl, by decide⟩, ?_, rfl, rfl, rfl⟩
    intro a
    cases a with
    | main => decide
    | worker j => simp [step, workerStep]
    | handoff j => simp [step, handoffStep]
  · rintro s ⟨s0, sched, h0, hr⟩
    simp only [start, lt_self_iff_false, if_false, Option.some.injEq] at h0
    subst h0
    obtain ⟨_, _, _, _, h5, h6⟩ := zero_threads_states [lit "http://a"] (by decide) sched _ s
      ⟨rfl, rfl, rfl, rfl, rfl, Or.inl rfl⟩ hr
    refine ⟨?_, h5⟩
    rcases h6 with h | h <;> simp [h]

end processURLs

/-! ## `parseHeaders` -/

/-- The body of the loop of `parseHeaders`. -/
theorem parse_step_get (m : GoMap) (p k : GoString) :
    GoMap.get
        (if (strings.SplitN p colon 2).length = 2 then
          GoMap.set m (strings.TrimSpace ((strings.SplitN p colon 2).getD 0 []))
            (strings.TrimSpace ((strings.SplitN p colon 2).getD 1 []))
        else m) k =
      if colon ∈ p ∧ strings.TrimSpace (beforeColon p) = k then
        some (strings.TrimSpace (afterColon p))
      else GoMap.get m k := by
  rw [strings.splitN_two]
  by_cases hc : colon ∈ p
  · simp only [hc, if_true, List.length_cons, List.length_nil, true_and]
    simp only [List.getD_cons_zero, List.getD_cons_succ, GoMap.get_set]
    rfl
  · simp [hc]

/-- The value the pieces `ps` give to key `k`: that of the last piece with a colon whose
key trims to `k`. -/
theorem parse_fold_get (ps : List GoString) (k : GoString) :
    ∀ m : GoMap,
      GoMap.get
          (ps.foldl
            (fun headers pair =>
              if (strings.SplitN pair colon 2).length = 2 then
                GoMap.set headers (strings.TrimSpace ((strings.SplitN pair colon 2).getD 0 []))
                  (strings.TrimSpace ((strings.SplitN pair colon 2).getD 1 []))
              else headers)
            m) k =
        ((((ps.filter (fun p => decide (colon ∈ p))).filter
              (fun p => decide (strings.TrimSpace (beforeColon p) = k))).getLast?.map
            (fun p => strings.TrimSpace (afterColon p))).or (GoMap.get m k)) := by
  induction ps with
  | nil => intro m; simp
  | cons p ps ih =>
    intro m
    rw [List.foldl_cons, ih, parse_step_get]
    by_cases hc : colon ∈ p
    · by_cases hk : strings.TrimSpace (beforeColon p) = k
      · rw [List.filter_cons_of_pos (by simpa using hc),
          List.filter_cons_of_pos (by simpa using hk), List.getLast?_cons]
        simp only [hc, hk, and_self, if_true]
        rcases ((ps.filter (fun p => decide (colon ∈ p))).filter
          (fun p => decide (strings.TrimSpace (beforeColon p) = k))).getLast? with _ | q
        · simp
        · simp
      · rw [List.filter_cons_of_pos (by simpa using hc),
          List.filter_cons_of_neg (by simpa using hk)]
        simp [hk]
    · rw [List.filter_cons_of_neg (by simpa using hc)]
      simp [hc]

theorem parseHeaders_get (h k : GoString) : GoMap.get (parseHeaders h) k = headerSpec h k := by
  unfold parseHeaders headerSpec
  by_cases hh : h = []
  · subst hh
    simp [List.splitOn, GoMap.get, colon]
  · simp only [hh, ne_eq, not_false_eq_true, if_true]
    rw [parse_fold_get, strings.split_eq_splitOn]
    simp [GoMap.get_nil]

theorem parse_fold_no_colon (ps : List GoString) (hps : ∀ p ∈ ps, colon ∉ p) (m : GoMap) :
    ps.foldl
        (fun headers pair =>
          if (strings.SplitN pair colon 2).length = 2 then
            GoMap.set headers (strings.TrimSpace ((strings.SplitN pair colon 2).getD 0 []))
              (strings.TrimSpace ((strings.SplitN pair colon 2).getD 1 []))
          else headers)
        m = m := by
  induction ps with
  | nil => rfl
  | cons p ps ih =>
    rw [List.foldl_cons, strings.splitN_two]
    have hp : colon ∉ p := hps p (by simp)
    simp only [hp, if_false, List.length_singleton, OfNat.one_ne_ofNat]
    exact ih (fun q hq => hps q (by simp [hq]))

theorem mem_of_mem_splitLoop (sep : Nat) (k : Nat) :
    ∀ s : GoString, ∀ p ∈ strings.splitLoop sep k s, ∀ b ∈ p, b ∈ s := by
  induction k with
  | zero =>
    intro s p hp b hb
    simp only [strings.splitLoop, List.mem_singleton] at hp
    exact hp ▸ hb
  | succ k ih =>
    intro s p hp b hb
    simp only [strings.splitLoop] at hp
    rcases hi : strings.IndexByte s sep with _ | m
    · simp only [hi, List.mem_singleton] at hp
      exact hp ▸ hb
    · simp only [hi, List.mem_cons] at hp
      rcases hp with rfl | hp
      · exact List.mem_of_mem_take hb
      · exact List.mem_of_mem_drop (ih _ p hp b hb)

/-- **C3**: for every header string `h` and key `k`, `parseHeaders h` maps `k` to the
value given by the last comma-separated piece with a colon whose text before its first
colon trims to `k`, namely the trimmed text after that colon, and has no entry for `k`
when there is no such piece (`headerSpec`).  A string without a colon, like the empty
string or `garbage`, gives the empty mapping, and `A: 1, B:2` gives `A ↦ 1`, `B ↦ 2`. -/
theorem parseHeaders_spec :
    (∀ h k : GoString, GoMap.get (parseHeaders h) k = headerSpec h k) ∧
      (∀ h : GoString, colon ∉ h → parseHeaders h = []) ∧
      parseHeaders (lit "") = [] ∧ parseHeaders (lit "garbage") = [] ∧
      GoMap.get (parseHeaders (lit "A: 1, B:2")) (lit "A") = some (lit "1") ∧
      GoMap.get (parseHeaders (lit "A: 1, B:2")) (lit "B") = some (lit "2") ∧
      (parseHeaders (lit "A: 1, B:2")).length = 2 := by
  refine ⟨parseHeaders_get, ?_, by decide, by decide, by decide, by decide, by decide⟩
  intro h hc
  unfold parseHeaders
  split_ifs with hh
  · apply parse_fold_no_colon
    intro p hp hcp
    exact hc (mem_of_mem_splitLoop comma _ h p hp colon hcp)
  · rfl

theorem not_mem_beforeColon (p : GoString) : colon ∉ beforeColon p := by
  intro h
  have := List.mem_takeWhile_imp h
  simp at this

theorem mem_beforeColon (p : GoString) : ∀ b ∈ beforeColon p, b ∈ p :=
  fun _ hb => (List.takeWhile_sublist _).subset hb

theorem mem_afterColon (p : GoString) : ∀ b ∈ afterColon p, b ∈ p :=
  fun _ hb => (List.dropWhile_sublist _).subset (List.mem_of_mem_drop hb)

/-- The entry the loop of `parseHeaders` writes for a piece without comma is clean. -/
theorem clean_of_piece (p : GoString) (hp : comma ∉ p) :
    CleanEntry (strings.TrimSpace (beforeColon p), strings.TrimSpace (afterColon p)) :=
  ⟨strings.trimSpace_idem _, strings.trimSpace_idem _,
    fun h => hp (mem_beforeColon p _ (strings.mem_trimSpace _ _ h)),
    fun h => hp (mem_afterColon p _ (strings.mem_trimSpace _ _ h)),
    fun h => not_mem_beforeColon p (strings.mem_trimSpace _ _ h)⟩

theorem set_clean (m : GoMap) (k v : GoString) (hm : ∀ e ∈ m, CleanEntry e)
    (hk : (m.map Prod.fst).Nodup) (he : CleanEntry (k, v)) :
    (∀ e ∈ GoMap.set m k v, CleanEntry e) ∧ ((GoMap.set m k v).map Prod.fst).Nodup := by
  unfold GoMap.set
  constructor
  · intro e hmem
    rcases List.mem_cons.mp hmem with rfl | hmem
    · exact he
    · exact hm e (List.mem_of_mem_filter hmem)
  · rw [List.map_cons, List.nodup_cons]
    constructor
    · intro hmem
      obtain ⟨e, he1, he2⟩ := List.mem_map.mp hmem
      have := (List.mem_filter.mp he1).2
      simp only [ne_eq, decide_not, Bool.not_eq_true', decide_eq_false_iff_not] at this
      exact this he2
    · exact (List.Nodup.sublist ((List.filter_sublist m).map Prod.fst) hk)

theorem parse_fold_clean (ps : List GoString) (hps : ∀ p ∈ ps, comma ∉ p) :
    ∀ m : GoMap, (∀ e ∈ m, CleanEntry e) → (m.map Prod.fst).Nodup →
      (∀ e ∈ ps.foldl
          (fun headers pair =>
            if (strings.SplitN pair colon 2).length = 2 then
              GoMap.set headers (strings.TrimSpace ((strings.SplitN pair colon 2).getD 0 []))
                (strings.TrimSpace ((strings.SplitN pair colon 2).getD 1 []))
            else headers)
          m, CleanEntry e) ∧
        ((ps.foldl
          (fun headers pair =>
            if (strings.SplitN pair colon 2).length = 2 then
              GoMap.set headers (strings.TrimSpace ((strings.SplitN pair colon 2).getD 0 []))
                (strings.TrimSpace ((strings.SplitN pair colon 2).getD 1 []))
            else headers)
          m).map Prod.fst).Nodup := by
  induction ps with
  | nil => intro m h1 h2; exact ⟨h1, h2⟩
  | cons p ps ih =>
    intro m h1 h2
    rw [List.foldl_cons]
    apply ih (fun q hq => hps q (by simp [hq]))
    · rw [strings.splitN_two]
      by_cases hc : colon ∈ p
      · simp only [hc, if_true, List.length_cons, List.length_nil, List.getD_cons_zero,
          List.getD_cons_succ]
        exact (set_clean m _ _ h1 h2 (clean_of_piece p (hps p (by simp)))).1
      · simpa [hc] using h1
    · rw [strings.splitN_two]
      by_cases hc : colon ∈ p
      · simp only [hc, if_true, List.length_cons, List.length_nil, List.getD_cons_zero,
          List.getD_cons_succ]
        exact (set_clean m _ _ h1 h2 (clean_of_piece p (hps p (by simp)))).2
      · simpa [hc] using h2

/-- Every entry of a parsed mapping is clean and no key occurs twice. -/
theorem parseHeaders_clean (h : GoString) :
    (∀ e ∈ parseHeaders h, CleanEntry e) ∧ ((parseHeaders h).map Prod.fst).Nodup := by
  unfold parseHeaders
  split_ifs with hh
  · exact parse_fold_clean _ (strings.split_no_sep h comma) [] (by simp) (by simp)
  · exact ⟨by simp, by simp⟩

theorem beforeColon_piece (k v : GoString) (hk : colon ∉ k) :
    beforeColon (k ++ colon :: v) = k := by
  unfold beforeColon
  induction k with
  | nil => simp [List.takeWhile]
  | cons b t ih =>
    have hb : b ≠ colon := fun e => hk (by simp [e])
    have ih2 := ih (fun hm => hk (by simp [hm]))
    simpa [List.takeWhile_cons, hb] using ih2

theorem afterColon_piece (k v : GoString) (hk : colon ∉ k) :
    afterColon (k ++ colon :: v) = v := by
  unfold afterColon
  induction k with
  | nil => simp [List.dropWhile]
  | cons b t ih =>
    have hb : b ≠ colon := fun e => hk (by simp [e])
    have ih2 := ih (fun hm => hk (by simp [hm]))
    simpa [List.dropWhile_cons, hb] using ih2

/-- In a list of entries without repeated key, a key has the value `v` exactly when the
entry `(k, v)` is in the list. -/
theorem get_eq_some_iff (m : GoMap) (hm : (m.map Prod.fst).Nodup) (k v : GoString) :
    GoMap.get m k = some v ↔ (k, v) ∈ m := by
  unfold GoMap.get
  constructor
  · intro h
    rcases hf : m.find? (fun e => decide (e.1 = k)) with _ | e
    · simp [hf] at h
    · simp only [hf, Option.map_some', Option.some.injEq] at h
      have h1 := List.find?_some hf
      have h2 := List.mem_of_find?_eq_some hf
      simp only [decide_eq_true_eq] at h1
      rcases e with ⟨a, b⟩
      simp only at h h1
      subst h h1
      exact h2
  · intro h
    rcases hf : m.find? (fun e => decide (e.1 = k)) with _ | e
    · have := List.find?_eq_none.mp hf (k, v) h
      simp at this
    · have h1 := List.find?_some hf
      have h2 := List.mem_of_find?_eq_some hf
      simp only [decide_eq_true_eq] at h1
      have := List.inj_on_of_nodup_map hm h2 h (by simpa using h1)
      subst this
      rw [hf]
      rfl

theorem last_eq_some_iff (m : GoMap) (hm : (m.map Prod.fst).Nodup) (k v : GoString) :
    ((m.filter (fun e => decide (e.1 = k))).getLast?.map Prod.snd) = some v ↔ (k, v) ∈ m := by
  constructor
  · intro h
    rcases hf : (m.filter (fun e => decide (e.1 = k))).getLast? with _ | e
    · simp [hf] at h
    · simp only [hf, Option.map_some', Option.some.injEq] at h
      have h1 := List.mem_of_getLast?_eq_some hf
      rw [List.mem_filter] at h1
      rcases e with ⟨a, b⟩
      simp only [decide_eq_true_eq] at h h1
      obtain ⟨h2, h3⟩ := h1
      subst h h3
      exact h2
  · intro h
    have hmem : (k, v) ∈ m.filter (fun e => decide (e.1 = k)) := by
      rw [List.mem_filter]
      exact ⟨h, by simp⟩
    rcases hf : (m.filter (fun e => decide (e.1 = k))).getLast? with _ | e
    · rw [List.getLast?_eq_none_iff] at hf
      rw [hf] at hmem
      simp at hmem
    · have h1 := List.mem_of_getLast?_eq_some hf
      rw [List.mem_filter] at h1
      simp only [decide_eq_true_eq] at h1
      have := List.inj_on_of_nodup_map hm h1.1 h (by simpa using h1.2)
      subst this
      rw [hf]
      rfl

/-- The value `headerSpec` gives to a key in a mapping written back. -/
theorem headerSpec_render (es : GoMap) (hes : ∀ e ∈ es, CleanEntry e) (hne : es ≠ [])
    (k : GoString) :
    headerSpec (renderHeaders es) k =
      (es.filter (fun e => decide (e.1 = k))).getLast?.map Prod.snd := by
  unfold headerSpec renderHeaders
  rw [List.splitOn_intercalate _ comma _ (by simpa using hne)]
  · rw [List.filter_map, List.filter_map, List.getLast?_map, Option.map_map]
    have hfil : (es.filter ((fun p => decide (colon ∈ p)) ∘ fun e => e.1 ++ colon :: e.2)) = es := by
      rw [List.filter_eq_self]
      intro e _
      simp
    rw [hfil]
    have hfil2 : es.filter ((fun p => decide (strings.TrimSpace (beforeColon p) = k)) ∘
        fun e => e.1 ++ colon :: e.2) = es.filter (fun e => decide (e.1 = k)) := by
      apply List.filter_congr
      intro e he
      obtain ⟨h1, _, _, _, h5⟩ := hes e he
      simp only [Function.comp_apply, beforeColon_piece _ _ h5, h1]
    rw [hfil2]
    rcases hl : (es.filter (fun e => decide (e.1 = k))).getLast? with _ | e
    · rw [hl]
      rfl
    · have he := (List.mem_filter.mp (List.mem_of_getLast?_eq_some hl)).1
      obtain ⟨_, h2, _, _, h5⟩ := hes e he
      rw [hl]
      simp only [Option.map_some', Function.comp_apply, afterColon_piece _ _ h5, h2]
  · intro l hl
    obtain ⟨e, he, rfl⟩ := List.mem_map.mp hl
    obtain ⟨_, _, h3, h4, _⟩ := hes e he
    simp only [List.mem_append, List.mem_cons, not_or]
    exact ⟨h3, by decide, h4⟩

/-- **C9**: for every header string `h`, writing the mapping `parseHeaders h` back as its
`key:value` entries joined by commas, in any order of the entries, and parsing that
string gives the same mapping: every key has the same value, or none, in both. -/
theorem parseHeaders_idempotent (h : GoString) (es : GoMap)
    (hes : List.Perm es (parseHeaders h)) (k : GoString) :
    GoMap.get (parseHeaders (renderHeaders es)) k = GoMap.get (parseHeaders h) k := by
  obtain ⟨hclean, hnodup⟩ := parseHeaders_clean h
  have hclean2 : ∀ e ∈ es, CleanEntry e := fun e he => hclean e (hes.subset he)
  have hnodup2 : (es.map Prod.fst).Nodup := (hes.map Prod.fst).nodup_iff.mpr hnodup
  by_cases hne : es = []
  · subst hne
    have : parseHeaders h = [] := List.Perm.eq_nil (List.Perm.symm hes)
    rw [this]
    rfl
  · rw [parseHeaders_get, headerSpec_render es hclean2 hne]
    apply Option.ext
    intro v
    simp only [Option.mem_def]
    rw [last_eq_some_iff es hnodup2, get_eq_some_iff _ hnodup]
    exact hes.mem_iff

/-- C9 at the header string ` A : 1 ,B:2`, written back in the other order. -/
theorem parseHeaders_idempotent_witness :
    List.Perm [(lit "A", lit "1"), (lit "B", lit "2")] (parseHeaders (lit " A : 1 ,B:2")) ∧
      GoMap.get (parseHeaders (renderHeaders [(lit "A", lit "1"), (lit "B", lit "2")])) (lit "B") =
        GoMap.get (parseHeaders (lit " A : 1 ,B:2")) (lit "B") :=
  ⟨by decide,
    parseHeaders_idempotent (lit " A : 1 ,B:2") [(lit "A", lit "1"), (lit "B", lit "2")]
      (by decide) (lit "B")⟩

/-! ## The timeout conversion of `main` -/

/-- **C10**, counterexample: with `-t 9223372037` the product overflows `int64` and the
timeout handed to the core is negative, neither 9223372037 seconds nor positive. -/
theorem timeoutOfFlag_overflow :
    IsInt 9223372037 ∧ (9223372037 : Int) > 0 ∧
      timeoutOfFlag 9223372037 = -9223372036709551616 ∧
      timeoutOfFlag 9223372037 ≠ 9223372037 * time.Second ∧
      ¬ (0 < timeoutOfFlag 9223372037) := by
  refine ⟨by unfold IsInt; norm_num, by norm_num, ?_, ?_, ?_⟩ <;>
    simp [timeoutOfFlag, wrapInt64, time.Second]

/-- **C10**, amended: for every flag value `n` up to 9223372036 (the largest number of
seconds an `int64` count of nanoseconds can hold), the timeout is exactly `n` seconds
when `n > 0` and `24*365*100` hours when `n ≤ 0`, and it is strictly positive and fits
in an `int64`. -/
theorem timeoutOfFlag_spec (n : Int) (hn : IsInt n) (hmax : n ≤ 9223372036) :
    (0 < n → timeoutOfFlag n = n * time.Second) ∧
      (n ≤ 0 → timeoutOfFlag n = 24 * 365 * 100 * time.Hour) ∧
      0 < timeoutOfFlag n ∧ IsInt (timeoutOfFlag n) := by
  unfold IsInt at hn ⊢
  by_cases h : n > 0
  · have e : timeoutOfFlag n = n * time.Second := by
      simp only [timeoutOfFlag, h, if_true, wrapInt64, time.Second]
      omega
    rw [e]
    simp only [time.Second]
    refine ⟨fun _ => trivial, fun h2 => by omega, by omega, by omega, by omega⟩
  · have e : timeoutOfFlag n = 3153600000000000000 := by
      simp [timeoutOfFlag, h, time.Hour]
    rw [e]
    simp only [time.Hour]
    refine ⟨fun h2 => by omega, fun _ => by norm_num, by norm_num, by norm_num, by norm_num⟩

/-- C10 (amended) at `-t 5`. -/
theorem timeoutOfFlag_spec_witness :
    IsInt 5 ∧ (5 : Int) ≤ 9223372036 ∧
      ((0 < (5 : Int) → timeoutOfFlag 5 = 5 * time.Second) ∧
        ((5 : Int) ≤ 0 → timeoutOfFlag 5 = 24 * 365 * 100 * time.Hour) ∧
        0 < timeoutOfFlag 5 ∧ IsInt (timeoutOfFlag 5)) :=
  ⟨by unfold IsInt; norm_num, by norm_num,
    timeoutOfFlag_spec 5 (by unfold IsInt; norm_num) (by norm_num)⟩

end ThreeS
